import Mathlib

/-
Verification of the srt-translator subtitle pipeline (src/main.rs) against
its natural-language specification.

Shallow embedding conventions:
  * Rust `String` / `&str` become Lean `String`; `str::len` (UTF-8 byte
    count) is modelled by `byteLen`.
  * The regex-replacement loops of `translate_subs` are embedded as
    character-list scanners.  Scanners whose recursion is not structural
    take a fuel argument; the public wrappers instantiate the fuel with
    the input length, which every lemma shows is sufficient.
  * The external translation capability `Google{}.translate` is an opaque
    function parameter `tr : String → String`.
  * `HashMap<&str, Word>` is modelled as an association list
    `List (String × WordKind)`; only its mapping (lookup) semantics and
    its value set are ever used by the program (the persisted text sorts
    explicitly), so the list order is irrelevant to every theorem.
-/

namespace SrtTranslator

/-- The apostrophe character, written via its code point. -/
def aposChar : Char := Char.ofNat 39

/-- ASCII decimal digit, the regex class `\d` (ASCII-only as used here). -/
def isDigitChar (c : Char) : Bool := 48 ≤ c.toNat && c.toNat ≤ 57

/-- ASCII lowercase letter `[a-z]`. -/
def isLowerAlpha (c : Char) : Bool := 97 ≤ c.toNat && c.toNat ≤ 122

/-- ASCII uppercase letter `[A-Z]`. -/
def isUpperAlpha (c : Char) : Bool := 65 ≤ c.toNat && c.toNat ≤ 90

/-- The character class `[a-zA-Z']` of `re_color` in `translate_subs`. -/
def isColorWordChar (c : Char) : Bool := isLowerAlpha c || isUpperAlpha c || c = aposChar

/-- The character class `[a-z']` of the word regex in `parse_sub_words`. -/
def isSubWordChar (c : Char) : Bool := isLowerAlpha c || c = aposChar

/-- `char::to_ascii_lowercase`: shift `A`-`Z` down by 32, keep the rest. -/
def lowerChar (c : Char) : Char :=
  if isUpperAlpha c then Char.ofNat (c.toNat + 32) else c

/-- `str::to_ascii_lowercase` over the whole string. -/
def lowerStr (s : String) : String := String.mk (s.data.map lowerChar)

/-- UTF-8 encoded size of one scalar value, as counted by Rust `str::len`. -/
def charBytes (c : Char) : Nat :=
  if c.toNat < 128 then 1
  else if c.toNat < 2048 then 2
  else if c.toNat < 65536 then 3
  else 4

/-- Rust `str::len`: the UTF-8 byte length of a string. -/
def byteLen (s : String) : Nat := (s.data.map charBytes).sum

/-- Concatenation of a list of strings (`String::push_str` accumulation). -/
def strJoin : List String → String
  | [] => ""
  | s :: rest => s ++ strJoin rest

/-- Join with a separator between elements (no trailing separator). -/
def strInterc (sep : String) : List String → String
  | [] => ""
  | [s] => s
  | s :: rest => s ++ sep ++ strInterc sep rest

/-- The tri-state word classification (`enum WordKind` in main.rs). -/
inductive WordKind where
  | Known
  | Unknown
  | New
deriving DecidableEq, Repr

/-- `HashMap::get` on the association-list model of the word table. -/
def dictGet : List (String × WordKind) → String → Option WordKind
  | [], _ => none
  | p :: rest, k => if p.1 = k then some p.2 else dictGet rest k

/-- `HashMap::entry(k).or_insert(Word with kind New)` from `main`:
words already present keep their classification, absent words are added
as `New`. -/
def insertIfAbsent (d : List (String × WordKind)) (w : String) :
    List (String × WordKind) :=
  match dictGet d w with
  | some _ => d
  | none => d ++ [(w, WordKind.New)]

/-- The merge loop of `main`: every word observed in the subtitle file is
inserted into the database mapping unless already present. -/
def mergeWords (db : List (String × WordKind)) (ws : List String) :
    List (String × WordKind) :=
  ws.foldl insertIfAbsent db

/-- `str::replace(pat, rep)`: leftmost, non-overlapping occurrences.
Fuel-indexed scanner; fuel `≥` input length is sufficient. -/
def replaceAllAux (pat rep : List Char) : Nat → List Char → List Char
  | 0, l => l
  | fuel + 1, l =>
    match l with
    | [] => []
    | c :: rest =>
      if pat.isPrefixOf (c :: rest) then
        rep ++ replaceAllAux pat rep fuel (List.drop pat.length (c :: rest))
      else
        c :: replaceAllAux pat rep fuel rest

/-- `str::replace` on strings. -/
def replaceAll (pat rep s : String) : String :=
  String.mk (replaceAllAux pat.data rep.data s.data.length s.data)

/-- `re_clean_tags = (</?[ib]>)` applied with `replace_all(.., "")`:
delete every `<i>`, `<b>`, `</i>`, `</b>` occurrence, scanning left to
right. -/
def stripTagsAux : Nat → List Char → List Char
  | 0, l => l
  | fuel + 1, l =>
    match l with
    | [] => []
    | c :: rest =>
      if "<i>".data.isPrefixOf (c :: rest) then stripTagsAux fuel (List.drop 3 (c :: rest))
      else if "<b>".data.isPrefixOf (c :: rest) then stripTagsAux fuel (List.drop 3 (c :: rest))
      else if "</i>".data.isPrefixOf (c :: rest) then stripTagsAux fuel (List.drop 4 (c :: rest))
      else if "</b>".data.isPrefixOf (c :: rest) then stripTagsAux fuel (List.drop 4 (c :: rest))
      else c :: stripTagsAux fuel rest

/-- Markup stripping of `translate_subs` (its first `replace_all`). -/
def stripTags (s : String) : String := String.mk (stripTagsAux s.data.length s.data)

/-- `re_newline = (\r?\n)` applied with `replace_all(.., rep)`:
every `\r\n` or bare `\n` becomes `rep`. -/
def collapseNLAux (rep : List Char) : List Char → List Char
  | [] => []
  | '\r' :: '\n' :: rest => rep ++ collapseNLAux rep rest
  | '\n' :: rest => rep ++ collapseNLAux rep rest
  | c :: rest => c :: collapseNLAux rep rest

/-- Line-break replacement on strings (`re_newline.replace_all`). -/
def collapseNL (rep : String) (s : String) : String :=
  String.mk (collapseNLAux rep.data s.data)

/-- Helper for `rustLines`: the accumulator is reversed, so a trailing
`\r` of the line sits at its head; Rust strips exactly one such `\r`
when the line is terminated by `\n`. -/
def dropTrailingCRrev : List Char → List Char
  | '\r' :: rest => rest
  | l => l

/-- Rust `str::lines`: split at `\n`, strip one `\r` before each `\n`,
drop a final empty piece. -/
def rustLinesAux : List Char → List Char → List String
  | [], acc => if acc = [] then [] else [String.mk acc.reverse]
  | c :: rest, acc =>
    if c = '\n' then
      String.mk (dropTrailingCRrev acc).reverse :: rustLinesAux rest []
    else
      rustLinesAux rest (c :: acc)

/-- Rust `str::lines` on strings. -/
def rustLines (s : String) : List String := rustLinesAux s.data []

/-- The word regex of `parse_sub_words`, `([a-z']+?)[^a-z']+`: a maximal
run of word characters followed by at least one separator.  A run that
reaches the end of the input has no following separator and is not
emitted.  Fuel-indexed; fuel `≥` input length suffices. -/
def subWordsAux : Nat → List Char → List String
  | 0, _ => []
  | _ + 1, [] => []
  | fuel + 1, c :: rest =>
    if isSubWordChar c then
      let run := c :: rest.takeWhile isSubWordChar
      match rest.dropWhile isSubWordChar with
      | [] => []
      | d :: rest1 =>
          String.mk run ::
            subWordsAux fuel ((d :: rest1).dropWhile (fun c2 => !isSubWordChar c2))
    else
      subWordsAux fuel rest

/-- `parse_sub_words` word extraction (the insertion-keyed set is kept as
the list of extracted occurrences; `or_insert` style uses ignore
duplicates). -/
def subWords (s : String) : List String := subWordsAux s.data.length s.data

/-- The highlight wrapper of `translate_subs`:
`format!("<font color=\"#FFFF80\">{w}</font>")`. -/
def highlightWord (w : List Char) : List Char :=
  "<font color=\"#FFFF80\">".data ++ w ++ "</font>".data

/-- The `re_color.replace_all` closure of `translate_subs`: scan maximal
`[a-zA-Z']` runs; a run whose ASCII-lowercase form is present in the
word table with a non-`Known` kind is wrapped in the highlight marker
and raises the `need_translation` flag; `Known` and absent runs are
copied unchanged.  Returns (rewritten text, flag). -/
def colorizeAux (dict : List (String × WordKind)) : Nat → List Char → List Char × Bool
  | 0, l => (l, false)
  | _ + 1, [] => ([], false)
  | fuel + 1, c :: rest =>
    if isColorWordChar c then
      let run := c :: rest.takeWhile isColorWordChar
      let next := colorizeAux dict fuel (rest.dropWhile isColorWordChar)
      match dictGet dict (String.mk (run.map lowerChar)) with
      | some WordKind.Known => (run ++ next.1, next.2)
      | some _ => (highlightWord run ++ next.1, true)
      | none => (run ++ next.1, next.2)
    else
      let next := colorizeAux dict fuel rest
      (c :: next.1, next.2)

/-- Highlighting pass on strings. -/
def colorize (dict : List (String × WordKind)) (s : String) : String × Bool :=
  let r := colorizeAux dict s.data.length s.data
  (String.mk r.1, r.2)

/-- `MAX_CHUNK_SIZE` of `translate_subs`. -/
def MAX_CHUNK_SIZE : Nat := 4000

/-- The chunk accumulator of `translate_subs`.  `current` is the list of
entry texts whose CRLF-joined concatenation is the Rust `current_chunk`
string; `size` is `current_chunk_size` (which counts only the entry
texts, not the appended `\r\n` terminators); `flushed` are the batches
already sent, in order. -/
structure BatchState where
  flushed : List (List String)
  current : List String
  size : Nat
deriving DecidableEq, Repr

/-- One flagged entry through the chunk accumulator: add its length
(`current_chunk_size += text.len()`); on overflow flush the
already-accumulated chunk (possibly empty) and start a new one with
this entry; otherwise append. -/
def batchStep (st : BatchState) (text : String) : BatchState :=
  if st.size + byteLen text > MAX_CHUNK_SIZE then
    { flushed := st.flushed ++ [st.current], current := [text], size := byteLen text }
  else
    { flushed := st.flushed, current := st.current ++ [text],
      size := st.size + byteLen text }

/-- The trailing `if !current_chunk.is_empty()` flush of
`translate_subs`. -/
def finishBatch (st : BatchState) : List (List String) :=
  if st.current = [] then st.flushed else st.flushed ++ [st.current]

/-- All batches sent by `translate_subs` for the given flagged entry
texts, in call order: the in-loop flushes plus the trailing flush of a
non-empty final chunk. -/
def runBatcher (texts : List String) : List (List String) :=
  finishBatch (texts.foldl batchStep { flushed := [], current := [], size := 0 })

/-- The Rust `current_chunk` string a batch denotes: each entry text
followed by `\r\n`. -/
def chunkString (batch : List String) : String :=
  strJoin (batch.map (fun t => t ++ "\r\n"))

/-- Millisecond-resolution timestamp (the `NaiveTime` fields used by the
program; chrono's range validation is not needed by any theorem, whose
inputs are always in range). -/
structure Timestamp where
  hh : Nat
  mm : Nat
  ss : Nat
  ms : Nat
deriving DecidableEq, Repr

/-- `struct Sub` of main.rs. -/
structure Sub where
  index : Nat
  start_time : Timestamp
  end_time : Timestamp
  text : String
  need_translation : Bool
deriving DecidableEq, Repr

/-- The per-entry head of the `translate_subs` loop: strip `<i>`/`<b>`
tags, replace line breaks by spaces (both assigned back to the entry's
text), then run the highlighting pass.  A flagged entry keeps the
highlighted text and contributes its batch text, which is the
space-collapsed text with line breaks replaced by `*` — at that point
the text has no line breaks left, so this second replacement never
fires. -/
def processSub (dict : List (String × WordKind)) (s : Sub) : Sub × Option String :=
  if (colorize dict (collapseNL " " (stripTags s.text))).2 then
    ({ s with
        text := (colorize dict (collapseNL " " (stripTags s.text))).1
        need_translation := true },
     some (collapseNL "*" (collapseNL " " (stripTags s.text))))
  else
    ({ s with text := collapseNL " " (stripTags s.text) }, none)

/-- `translated_chunks`: each batch's translation result followed by
`\r\n`, concatenated in call order. -/
def translatedChunks (tr : String → String) (chunks : List (List String)) : String :=
  strJoin (chunks.map (fun c => tr (chunkString c) ++ "\r\n"))

/-- The translated line iterator: the literal `\r\n` escape sequences
are replaced by real CRLF, then the text is split with `str::lines`. -/
def translatedLines (tr : String → String) (chunks : List (List String)) : List String :=
  rustLines (replaceAll "\\r\\n" "\r\n" (translatedChunks tr chunks))

/-- The reassembly loop of `translate_subs`: each entry flagged
`need_translation` consumes the next translated line, reverses the
`" *"` substitution and appends the line below its text; `none` models
the `unwrap` panic when the lines run out. -/
def attachTranslations : List Sub → List String → Option (List Sub)
  | [], _ => some []
  | s :: rest, ls =>
    if s.need_translation then
      match ls with
      | [] => none
      | l :: ls1 =>
        (attachTranslations rest ls1).map
          (fun r => { s with text := s.text ++ "\r\n" ++ replaceAll " *" "\r\n" l } :: r)
    else
      (attachTranslations rest ls).map (fun r => s :: r)

/-- `translate_subs`, with the external capability `tr` as parameter.
Returns the rewritten entries (none models the reassembly `unwrap`
panic on under-delivery) together with the list of batches sent. -/
def translateSubs (tr : String → String) (dict : List (String × WordKind))
    (subs : List Sub) : Option (List Sub) × List (List String) :=
  let processed := subs.map (processSub dict)
  let chunks := runBatcher (processed.filterMap Prod.snd)
  (attachTranslations (processed.map Prod.fst) (translatedLines tr chunks), chunks)

/-- A decimal digit character from a digit value. -/
def digitChar (d : Nat) : Char := Char.ofNat (48 + d)

/-- Two-digit zero-padded rendering (`%H`, `%M`, `%S`). -/
def pad2 (n : Nat) : String := String.mk [digitChar (n / 10), digitChar (n % 10)]

/-- Three-digit zero-padded rendering (`%3f`). -/
def pad3 (n : Nat) : String :=
  String.mk [digitChar (n / 100), digitChar (n / 10 % 10), digitChar (n % 10)]

/-- chrono's `%H:%M:%S,%3f` format used by `Sub::stringify`. -/
def fmtTimestamp (t : Timestamp) : String :=
  pad2 t.hh ++ ":" ++ pad2 t.mm ++ ":" ++ pad2 t.ss ++ "," ++ pad3 t.ms

/-- `Sub::stringify`: the four-line output block with a trailing blank
line. -/
def stringify (s : Sub) : String :=
  Nat.repr s.index ++ "\n" ++ fmtTimestamp s.start_time ++ " --> " ++
    fmtTimestamp s.end_time ++ "\n" ++ s.text ++ "\n\n"

/-- The output-file fold of `main`. -/
def serializeSubs (subs : List Sub) : String := strJoin (subs.map stringify)

/-- `\r?\n` at the head of the input. -/
def parseNL : List Char → Option (List Char)
  | '\r' :: '\n' :: rest => some rest
  | '\n' :: rest => some rest
  | _ => none

/-- `str::parse::<u32>` on a digit run (overflow is irrelevant to every
theorem, whose inputs are small). -/
def digitsVal (l : List Char) : Nat :=
  l.foldl (fun a c => 10 * a + (c.toNat - 48)) 0

/-- `\d{2}:\d{2}:\d{2},\d{3}` with the value grouping of
`NaiveTime::parse_from_str(.., "%H:%M:%S,%3f")`. -/
def parseTimestamp : List Char → Option (Timestamp × List Char)
  | c1 :: c2 :: ':' :: c3 :: c4 :: ':' :: c5 :: c6 :: ',' :: c7 :: c8 :: c9 :: rest =>
    if isDigitChar c1 && isDigitChar c2 && isDigitChar c3 && isDigitChar c4 &&
        isDigitChar c5 && isDigitChar c6 && isDigitChar c7 && isDigitChar c8 &&
        isDigitChar c9 then
      some ({ hh := digitsVal [c1, c2], mm := digitsVal [c3, c4],
              ss := digitsVal [c5, c6], ms := digitsVal [c7, c8, c9] }, rest)
    else none
  | _ => none

/-- The regex class `\s` (the ASCII part, which is all the theorems
instantiate). -/
def isWSChar (c : Char) : Bool :=
  c = ' ' || c = '\t' || c = '\n' || c = '\r' || c.toNat = 11 || c.toNat = 12

/-- `\s-->\s` between the two timestamps. -/
def parseArrow : List Char → Option (List Char)
  | c1 :: '-' :: '-' :: '>' :: c2 :: rest =>
    if isWSChar c1 && isWSChar c2 then some rest else none
  | _ => none

/-- `\r?\n\r?\n` at the head of the input, with the regex backtracking
priority (each `\r?` greedy). -/
def sepAt : List Char → Option (List Char)
  | '\r' :: '\n' :: '\r' :: '\n' :: rest => some rest
  | '\r' :: '\n' :: '\n' :: rest => some rest
  | '\n' :: '\r' :: '\n' :: rest => some rest
  | '\n' :: '\n' :: rest => some rest
  | _ => none

/-- The lazy `.+?` before the separator: the text runs to the earliest
position where `\r?\n\r?\n` matches.  Returns (text chars, rest after
the separator). -/
def findSep : List Char → Option (List Char × List Char)
  | [] => none
  | c :: rest =>
    match sepAt (c :: rest) with
    | some r => some ([], r)
    | none => (findSep rest).map (fun p => (c :: p.1, p.2))

/-- One attempt of the block regex of `parse_subs` at the current
position: index digits, line break, timestamp, arrow, timestamp, line
break, non-empty lazy text, blank-line separator. -/
def matchAt (l : List Char) : Option (Sub × List Char) :=
  let ds := l.takeWhile isDigitChar
  if ds = [] then none
  else
    match parseNL (l.dropWhile isDigitChar) with
    | none => none
    | some r1 =>
      match parseTimestamp r1 with
      | none => none
      | some (t1, r2) =>
        match parseArrow r2 with
        | none => none
        | some r3 =>
          match parseTimestamp r3 with
          | none => none
          | some (t2, r4) =>
            match parseNL r4 with
            | none => none
            | some r5 =>
              match r5 with
              | [] => none
              | c :: r6 =>
                match findSep r6 with
                | none => none
                | some (textTail, rest) =>
                  some ({ index := digitsVal ds, start_time := t1, end_time := t2,
                          text := String.mk (c :: textTail),
                          need_translation := false }, rest)

/-- `captures_iter`: leftmost matches, resuming after each match's end;
positions where the pattern fails are skipped.  Fuel-indexed; fuel `≥`
input length suffices because every step consumes at least one
character. -/
def scanAux : Nat → List Char → List Sub
  | 0, _ => []
  | fuel + 1, l =>
    match matchAt l with
    | some (sub, rest) => sub :: scanAux fuel rest
    | none =>
      match l with
      | [] => []
      | _ :: t => scanAux fuel t

/-- `parse_subs`. -/
def parseSubs (s : String) : List Sub := scanAux s.data.length s.data

/-- Rust `str::cmp` as a `≤` test: lexicographic comparison of the
UTF-8 encodings, which on scalar values coincides with code-point
order. -/
def listLex : List Char → List Char → Bool
  | [], _ => true
  | _ :: _, [] => false
  | a :: as, b :: bs =>
    if a.toNat < b.toNat then true
    else if b.toNat < a.toNat then false
    else listLex as bs

/-- `left.text.cmp(right.text)` is not `Greater`. -/
def strLeb (a b : String) : Bool := listLex a.data b.data

/-- The on-disk dictionary serialization of `main`: sort all records by
word text, then emit the `?:` lines, then the `u:` lines, then the
`k:` lines, each fold appending `word\r\n` after its category prefix. -/
def persistDict (ws : List (String × WordKind)) : String :=
  let sorted := List.insertionSort (fun a b : String × WordKind => strLeb a.1 b.1 = true) ws
  let s1 := sorted.foldl
    (fun s w => match w.2 with
      | WordKind.New => s ++ "?:" ++ w.1 ++ "\r\n"
      | _ => s) ""
  let s2 := sorted.foldl
    (fun s w => match w.2 with
      | WordKind.Unknown => s ++ "u:" ++ w.1 ++ "\r\n"
      | _ => s) s1
  sorted.foldl
    (fun s w => match w.2 with
      | WordKind.Known => s ++ "k:" ++ w.1 ++ "\r\n"
      | _ => s) s2

/-- The observable file-system and network effects of `main`, in
program order. -/
inductive Event where
  | dbWrite (content : String)
  | translateCall (chunk : String)
  | outputWrite (content : String)
deriving DecidableEq, Repr

/-- Event classifier. -/
def Event.isTranslateCall : Event → Bool
  | translateCall _ => true
  | _ => false

/-- The effect trace of `main` (after the input files are read): parse
the subtitles, merge the observed words into the database mapping,
write the database file, and — unless in analyze mode — run
`translate_subs` (whose batch flushes are the translation calls) and
write the output file; a reassembly panic stops the run after the
calls. -/
def mainEvents (analyzeMode : Bool) (tr : String → String)
    (db : List (String × WordKind)) (subsText : String) : List Event :=
  let subs := parseSubs subsText
  let merged := mergeWords db (subWords (lowerStr subsText))
  let dbEvent := Event.dbWrite (persistDict merged)
  if analyzeMode then [dbEvent]
  else
    match translateSubs tr merged subs with
    | (some out, chunks) =>
      dbEvent :: (chunks.map (fun c => Event.translateCall (chunkString c)) ++
        [Event.outputWrite (serializeSubs out)])
    | (none, chunks) =>
      dbEvent :: chunks.map (fun c => Event.translateCall (chunkString c))

/-- A string of `n` letters `a`; used to build concrete oversized
entry texts. -/
def aRep (n : Nat) : String := String.mk (List.replicate n 'a')

/-! ### Batcher invariants (claims C2 and C6) -/

/-- A batch is a single (possibly oversized) entry, or its entry
payloads sum to at most the ceiling. -/
def goodBatch (b : List String) : Prop :=
  b.length = 1 ∨ (b.map byteLen).sum ≤ MAX_CHUNK_SIZE

/-- The loop invariant of the chunk accumulator: all flushed batches
are good, `current_chunk_size` is the payload sum of the accumulating
chunk, and the accumulating chunk is itself good. -/
def batchInv (st : BatchState) : Prop :=
  (∀ b ∈ st.flushed, goodBatch b) ∧
  st.size = (st.current.map byteLen).sum ∧
  goodBatch st.current

/-! ### Word extraction (claim C9) -/

/-- Spec-side tokenizer for claim C9: the ordered maximal runs of
characters satisfying `p`.  Fuel-indexed; fuel `≥` input length
suffices. -/
def runsOfAux (p : Char → Bool) : Nat → List Char → List (List Char)
  | 0, _ => []
  | _ + 1, [] => []
  | fuel + 1, c :: rest =>
    if p c then (c :: rest.takeWhile p) :: runsOfAux p fuel (rest.dropWhile p)
    else runsOfAux p fuel rest

/-- The maximal `[a-z']` runs of a character list (the claim's
"maximal alphabetic runs", on the lowercased text the extractor
receives). -/
def wordRuns (l : List Char) : List (List Char) := runsOfAux isSubWordChar l.length l

/-- Does the input end inside a word run (no separator after the last
run)? -/
def endsInRun (l : List Char) : Bool :=
  match l.getLast? with
  | some c => isSubWordChar c
  | none => false

/-- `subWords` on a character list, fuel pre-instantiated. -/
def subWordsList (l : List Char) : List String := subWordsAux l.length l

/-- Lexicographic sorting of strings (the effect of
`sort_by(|l, r| l.text.cmp(r.text))` followed by grouping). -/
def sortStrings (l : List String) : List String :=
  List.insertionSort (fun a b => strLeb a b = true) l

/-! ### Highlighting pass (claim C1) -/

/-- Generic wrapper for `runsOfAux` with sufficient fuel. -/
def runsList (p : Char → Bool) (l : List Char) : List (List Char) :=
  runsOfAux p l.length l

/-- The maximal `[a-zA-Z']` runs scanned by `re_color`. -/
def colorWordRuns (l : List Char) : List (List Char) := runsList isColorWordChar l

/-- A run whose ASCII-lowercased form is present in the word table
with a non-`Known` classification: exactly the runs the closure wraps
and flags. -/
def runTriggers (dict : List (String × WordKind)) (r : List Char) : Prop :=
  ∃ k, dictGet dict (String.mk (r.map lowerChar)) = some k ∧ k ≠ WordKind.Known

instance (dict : List (String × WordKind)) (r : List Char) :
    Decidable (runTriggers dict r) := by
  unfold runTriggers
  cases dictGet dict (String.mk (r.map lowerChar)) with
  | none => exact isFalse (by rintro ⟨k, hk, _⟩; cases hk)
  | some k =>
    by_cases hk : k = WordKind.Known
    · exact isFalse (by
        rintro ⟨k2, hk2, hne⟩
        injection hk2 with hke
        exact hne (hke ▸ hk))
    · exact isTrue ⟨k, rfl, hk⟩

/-- The amended claim's rendering, written from its words: every
maximal alphabetic run whose lowercase form is present in the table
with a non-`Known` kind is wrapped in the highlight marker; `Known`
runs and runs absent from the table are copied unchanged, as is every
separator character. -/
def colorizeSpecAux (dict : List (String × WordKind)) : Nat → List Char → List Char
  | 0, l => l
  | _ + 1, [] => []
  | fuel + 1, c :: rest =>
    if isColorWordChar c then
      (match dictGet dict (String.mk ((c :: rest.takeWhile isColorWordChar).map lowerChar)) with
        | some WordKind.Known => c :: rest.takeWhile isColorWordChar
        | some _ => highlightWord (c :: rest.takeWhile isColorWordChar)
        | none => c :: rest.takeWhile isColorWordChar) ++
        colorizeSpecAux dict fuel (rest.dropWhile isColorWordChar)
    else c :: colorizeSpecAux dict fuel rest

/-- Spec-side rendering with sufficient fuel. -/
def colorizeSpec (dict : List (String × WordKind)) (s : String) : String :=
  String.mk (colorizeSpecAux dict s.data.length s.data)

/-- `colorizeAux` with sufficient fuel, on character lists. -/
def colorizeList (dict : List (String × WordKind)) (l : List Char) :
    List Char × Bool :=
  colorizeAux dict l.length l

/-- `colorizeSpecAux` with sufficient fuel, on character lists. -/
def colorizeSpecList (dict : List (String × WordKind)) (l : List Char) : List Char :=
  colorizeSpecAux dict l.length l

/-- A one-entry subtitle list used by concrete instantiations. -/
def sampleSub (text : String) : Sub :=
  { index := 1, start_time := ⟨0, 0, 1, 0⟩, end_time := ⟨0, 0, 2, 0⟩,
    text := text, need_translation := false }

/-- The claim-side pairing: each flagged entry receives the translated
line produced from its own batched text, with the `" *"` reversal
applied; unflagged entries are untouched beyond the markup pass. -/
def expectedSub (dict : List (String × WordKind)) (f : String → String) (s : Sub) : Sub :=
  if (colorize dict (collapseNL " " (stripTags s.text))).2 then
    { s with
        text := (colorize dict (collapseNL " " (stripTags s.text))).1 ++ "\r\n" ++
          replaceAll " *" "\r\n" (f (collapseNL "*" (collapseNL " " (stripTags s.text))))
        need_translation := true }
  else
    { s with text := collapseNL " " (stripTags s.text) }

/-! ### Abstract well-formed subtitle documents (claims C5 and C8) -/

/-- An abstract subtitle block: the index digit run, two timestamps and
the text lines.  `renderBlock` lays it out in SRT form with a chosen
line terminator. -/
structure Block where
  indexDigits : List Char
  t1 : Timestamp
  t2 : Timestamp
  lines : List String

/-- A text line of a block: nonempty and free of line-break characters. -/
def lineOK (L : String) : Prop :=
  L.data ≠ [] ∧ ∀ c ∈ L.data, c ≠ '\r' ∧ c ≠ '\n'

/-- Timestamp fields within the ranges the `%H:%M:%S,%3f` rendering can
carry. -/
def tsOK (t : Timestamp) : Prop :=
  t.hh < 100 ∧ t.mm < 100 ∧ t.ss < 100 ∧ t.ms < 1000

/-- Well-formedness of a block: a nonempty all-digit index, in-range
timestamps, and a nonempty list of good lines. -/
def goodBlock (b : Block) : Prop :=
  b.indexDigits ≠ [] ∧ (∀ c ∈ b.indexDigits, isDigitChar c = true) ∧
    tsOK b.t1 ∧ tsOK b.t2 ∧ b.lines ≠ [] ∧ ∀ L ∈ b.lines, lineOK L

/-- The two line terminators compared by claim C8. -/
def goodNL (nl : String) : Prop := nl = "\n" ∨ nl = "\r\n"

/-- One SRT block rendered with the line terminator `nl`; the block is
followed by a blank line, i.e. a second terminator. -/
def renderBlock (nl : String) (b : Block) : String :=
  String.mk b.indexDigits ++ nl ++ fmtTimestamp b.t1 ++ " --> " ++
    fmtTimestamp b.t2 ++ nl ++ strInterc nl b.lines ++ nl ++ nl

/-- A whole SRT document rendered with the line terminator `nl`. -/
def renderDoc (nl : String) (bs : List Block) : String :=
  strJoin (bs.map (renderBlock nl))

/-- The entry `parse_subs` recovers from a rendered block.  The text
field keeps the document's own line terminator between the lines: the
`(?s)`-mode text group captures the `\r` characters of a CRLF
document. -/
def blockSub (nl : String) (b : Block) : Sub :=
  { index := digitsVal b.indexDigits, start_time := b.t1, end_time := b.t2,
    text := strInterc nl b.lines, need_translation := false }

/-- Head shapes after which the blank-line separator `\r?\n\r?\n`
cannot match, whatever follows. -/
def sepSafe (s : List Char) : Prop :=
  (∃ c t, s = c :: t ∧ c ≠ '\r' ∧ c ≠ '\n') ∨
  (∃ c t, s = '\n' :: c :: t ∧ c ≠ '\r' ∧ c ≠ '\n') ∨
  (∃ c t, s = '\r' :: '\n' :: c :: t ∧ c ≠ '\r' ∧ c ≠ '\n')

/-- A concrete one-line block used by witnesses. -/
def sampleBlock : Block :=
  { indexDigits := ['1'], t1 := ⟨0, 0, 1, 0⟩, t2 := ⟨0, 0, 2, 0⟩,
    lines := ["hello"] }

/-! ### Generic helper lemmas -/

theorem byteLen_append (s t : String) : byteLen (s ++ t) = byteLen s + byteLen t := by
  simp [byteLen, String.data_append]

theorem charBytes_a : charBytes 'a' = 1 := by decide

theorem byteLen_aRep (n : Nat) : byteLen (aRep n) = n := by
  simp [byteLen, aRep, List.map_replicate, charBytes_a, List.sum_replicate,
    smul_eq_mul, mul_one]

theorem batchStep_inv (st : BatchState) (t : String) (h : batchInv st) :
    batchInv (batchStep st t) := by
  obtain ⟨hf, hs, hc⟩ := h
  unfold batchStep batchInv
  split
  · refine ⟨?_, by simp, Or.inl rfl⟩
    intro b hb
    rcases List.mem_append.mp hb with h1 | h1
    · exact hf b h1
    · simp only [List.mem_singleton] at h1
      subst h1; exact hc
  · rename_i hle
    refine ⟨hf, by simp [hs], Or.inr ?_⟩
    simp only [List.map_append, List.sum_append, List.map_cons, List.map_nil,
      List.sum_cons, List.sum_nil, add_zero]
    omega

theorem foldl_batchStep_inv (texts : List String) (st : BatchState)
    (h : batchInv st) : batchInv (texts.foldl batchStep st) := by
  induction texts generalizing st with
  | nil => exact h
  | cons t rest ih => exact ih _ (batchStep_inv st t h)

theorem runBatcher_goodBatch (texts : List String) :
    ∀ b ∈ runBatcher texts, goodBatch b := by
  intro b hb
  have h := foldl_batchStep_inv texts { flushed := [], current := [], size := 0 }
    ⟨by simp, by simp, Or.inr (by simp [MAX_CHUNK_SIZE])⟩
  obtain ⟨hf, _, hc⟩ := h
  unfold runBatcher finishBatch at hb
  split at hb
  · exact hf b hb
  · rcases List.mem_append.mp hb with h1 | h1
    · exact hf b h1
    · simp only [List.mem_singleton] at h1
      subst h1; exact hc

/-- Claim C2 (amended): every batch flushed by `translate_subs` either
consists of a single (possibly oversized) entry or has entry-payload
byte length at most the 4000-byte ceiling.  The claim's bound on the
flushed chunk string itself fails, because the two-byte `\r\n`
terminator appended after each entry is not counted by
`current_chunk_size` (see `c2_counterexample`). -/
theorem c2_batch_payload_bound (tr : String → String)
    (dict : List (String × WordKind)) (subs : List Sub) (b : List String)
    (hb : b ∈ (translateSubs tr dict subs).2) :
    b.length = 1 ∨ (b.map byteLen).sum ≤ MAX_CHUNK_SIZE := by
  have h2 : (translateSubs tr dict subs).2 =
      runBatcher ((subs.map (processSub dict)).filterMap Prod.snd) := rfl
  rw [h2] at hb
  exact runBatcher_goodBatch _ b hb

theorem c2_batch_payload_bound_witness :
    ["ab"] ∈ (translateSubs (fun _ => "") [("ab", WordKind.New)]
      [{ index := 1, start_time := ⟨0, 0, 1, 0⟩, end_time := ⟨0, 0, 2, 0⟩,
         text := "ab", need_translation := false }]).2 ∧
    ((["ab"] : List String).length = 1 ∨
      ((["ab"] : List String).map byteLen).sum ≤ MAX_CHUNK_SIZE) :=
  ⟨by decide,
    c2_batch_payload_bound (fun _ => "") [("ab", WordKind.New)]
      [{ index := 1, start_time := ⟨0, 0, 1, 0⟩, end_time := ⟨0, 0, 2, 0⟩,
         text := "ab", need_translation := false }] ["ab"] (by decide)⟩

/-- Claim C2 counterexample: with flagged entry texts of 3998, 2 and 1
bytes, the first flushed batch is neither the final flush nor a single
oversized entry, yet the chunk string actually sent is 4004 bytes,
over the 4000-byte ceiling: `current_chunk_size` does not count the
`\r\n` appended after each entry. -/
theorem c2_counterexample :
    runBatcher [aRep 3998, "ab", "a"] = [[aRep 3998, "ab"], ["a"]] ∧
    byteLen (chunkString [aRep 3998, "ab"]) = 4004 := by
  constructor
  · have h1 : byteLen (aRep 3998) = 3998 := byteLen_aRep 3998
    have h2 : byteLen "ab" = 2 := by decide
    have h3 : byteLen "a" = 1 := by decide
    simp [runBatcher, finishBatch, batchStep, h1, h2, h3, MAX_CHUNK_SIZE]
  · simp only [chunkString, strJoin, List.map_cons, List.map_nil, byteLen_append,
      byteLen_aRep]
    decide

/-- Claim C6 (amended): for two flagged entries whose first batched
text is within the ceiling, a combined size within the ceiling gives
exactly one flushed batch holding both texts, and a combined size over
the ceiling gives exactly two batches, the first holding only the
first entry's text.  When the first text alone exceeds the ceiling the
claim fails: an empty batch is flushed first (see
`c6_counterexample`). -/
theorem c6_two_entry_batches (t1 t2 : String)
    (h1 : byteLen t1 ≤ MAX_CHUNK_SIZE) :
    (byteLen t1 + byteLen t2 ≤ MAX_CHUNK_SIZE →
      runBatcher [t1, t2] = [[t1, t2]]) ∧
    (MAX_CHUNK_SIZE < byteLen t1 + byteLen t2 →
      runBatcher [t1, t2] = [[t1], [t2]]) := by
  constructor
  · intro hle
    have hgt1 : ¬ MAX_CHUNK_SIZE < byteLen t1 := by omega
    have hgt2 : ¬ MAX_CHUNK_SIZE < byteLen t1 + byteLen t2 := by omega
    simp [runBatcher, finishBatch, batchStep, gt_iff_lt, zero_add, hgt1, hgt2]
  · intro hgt
    have hgt1 : ¬ MAX_CHUNK_SIZE < byteLen t1 := by omega
    have hgt2 : MAX_CHUNK_SIZE < byteLen t1 + byteLen t2 := hgt
    simp [runBatcher, finishBatch, batchStep, gt_iff_lt, zero_add, hgt1, hgt2]

theorem c6_two_entry_batches_witness :
    byteLen "ab" ≤ MAX_CHUNK_SIZE ∧
    runBatcher ["ab", "cd"] = [["ab", "cd"]] :=
  ⟨by decide, (c6_two_entry_batches "ab" "cd" (by decide)).1 (by decide)⟩

/-- Claim C6 counterexample: a first flagged text of 4001 bytes and a
second of 1 byte cross the ceiling, but three translation calls are
made, and the first call's batch is empty rather than holding the
first entry's text: the overflow check fires while `current_chunk` is
still empty. -/
theorem c6_counterexample :
    runBatcher [aRep 4001, "b"] = [[], [aRep 4001], ["b"]] := by
  have h1 : byteLen (aRep 4001) = 4001 := byteLen_aRep 4001
  have h2 : byteLen "b" = 1 := by decide
  simp [runBatcher, finishBatch, batchStep, h1, h2, MAX_CHUNK_SIZE]

theorem dropWhile_length_le (p : Char → Bool) (l : List Char) :
    (l.dropWhile p).length ≤ l.length := by
  induction l with
  | nil => simp
  | cons c rest ih =>
    by_cases hp : p c
    · rw [List.dropWhile_cons, if_pos hp]
      exact Nat.le_trans ih (Nat.le_succ _)
    · rw [List.dropWhile_cons, if_neg hp]

theorem dropWhile_head_not (p : Char → Bool) :
    ∀ (l : List Char) (d : Char) (t : List Char), l.dropWhile p = d :: t → p d = false := by
  intro l
  induction l with
  | nil => intro d t h; simp at h
  | cons c rest ih =>
    intro d t h
    cases hp : p c with
    | true =>
      rw [List.dropWhile_cons, if_pos hp] at h
      exact ih d t h
    | false =>
      rw [List.dropWhile_cons, if_neg (by simp [hp])] at h
      injection h with h1 _
      rw [← h1]
      exact hp

theorem runsOfAux_nil (p : Char → Bool) (fuel : Nat) : runsOfAux p fuel [] = [] := by
  cases fuel <;> rfl

theorem runsOfAux_fuel (p : Char → Bool) :
    ∀ (n : Nat) (l : List Char), l.length ≤ n → ∀ f1 f2, l.length ≤ f1 →
      l.length ≤ f2 → runsOfAux p f1 l = runsOfAux p f2 l := by
  intro n
  induction n with
  | zero =>
    intro l hl f1 f2 _ _
    have hnil : l = [] := List.length_eq_zero.mp (Nat.le_zero.mp hl)
    subst hnil
    rw [runsOfAux_nil, runsOfAux_nil]
  | succ n ih =>
    intro l hl f1 f2 h1 h2
    cases l with
    | nil => rw [runsOfAux_nil, runsOfAux_nil]
    | cons c rest =>
      simp only [List.length_cons] at hl h1 h2
      cases f1 with
      | zero => omega
      | succ g1 =>
        cases f2 with
        | zero => omega
        | succ g2 =>
          simp only [runsOfAux]
          by_cases hp : p c
          · rw [if_pos hp, if_pos hp]
            have hd := dropWhile_length_le p rest
            rw [ih (rest.dropWhile p) (by omega) g1 g2 (by omega) (by omega)]
          · rw [if_neg hp, if_neg hp]
            exact ih rest (by omega) g1 g2 (by omega) (by omega)

theorem subWordsAux_nil (fuel : Nat) : subWordsAux fuel [] = [] := by
  cases fuel <;> rfl

theorem subWordsAux_fuel :
    ∀ (n : Nat) (l : List Char), l.length ≤ n → ∀ f1 f2, l.length ≤ f1 →
      l.length ≤ f2 → subWordsAux f1 l = subWordsAux f2 l := by
  intro n
  induction n with
  | zero =>
    intro l hl f1 f2 _ _
    have hnil : l = [] := List.length_eq_zero.mp (Nat.le_zero.mp hl)
    subst hnil
    rw [subWordsAux_nil, subWordsAux_nil]
  | succ n ih =>
    intro l hl f1 f2 h1 h2
    cases l with
    | nil => rw [subWordsAux_nil, subWordsAux_nil]
    | cons c rest =>
      simp only [List.length_cons] at hl h1 h2
      cases f1 with
      | zero => omega
      | succ g1 =>
        cases f2 with
        | zero => omega
        | succ g2 =>
          by_cases hp : isSubWordChar c
          · cases hrest : rest.dropWhile isSubWordChar with
            | nil => simp only [subWordsAux, if_pos hp, hrest]
            | cons d rest2 =>
              simp only [subWordsAux, if_pos hp, hrest]
              have hd1 : (rest.dropWhile isSubWordChar).length ≤ rest.length :=
                dropWhile_length_le _ rest
              rw [hrest] at hd1
              have hd2 := dropWhile_length_le (fun c2 => !isSubWordChar c2) (d :: rest2)
              rw [ih ((d :: rest2).dropWhile (fun c2 => !isSubWordChar c2))
                (by simp only [List.length_cons] at hd1 hd2 ⊢; omega) g1 g2
                (by simp only [List.length_cons] at hd1 hd2 ⊢; omega)
                (by simp only [List.length_cons] at hd1 hd2 ⊢; omega)]
          · simp only [subWordsAux, if_neg hp]
            exact ih rest (by omega) g1 g2 (by omega) (by omega)

theorem subWords_eq_list (s : String) : subWords s = subWordsList s.data := rfl

theorem subWordsList_nil : subWordsList [] = [] := rfl

theorem subWordsList_cons_neg (c : Char) (rest : List Char)
    (hp : ¬ isSubWordChar c) : subWordsList (c :: rest) = subWordsList rest := by
  show subWordsAux (rest.length + 1) (c :: rest) = subWordsAux rest.length rest
  simp only [subWordsAux, if_neg hp]

theorem subWordsList_cons_end (c : Char) (rest : List Char)
    (hp : isSubWordChar c) (h : rest.dropWhile isSubWordChar = []) :
    subWordsList (c :: rest) = [] := by
  show subWordsAux (rest.length + 1) (c :: rest) = []
  simp only [subWordsAux, if_pos hp, h]

theorem subWordsList_cons_mid (c : Char) (rest : List Char) (d : Char)
    (rest2 : List Char) (hp : isSubWordChar c)
    (h : rest.dropWhile isSubWordChar = d :: rest2) :
    subWordsList (c :: rest) =
      String.mk (c :: rest.takeWhile isSubWordChar) ::
        subWordsList ((d :: rest2).dropWhile (fun c2 => !isSubWordChar c2)) := by
  show subWordsAux (rest.length + 1) (c :: rest) = _
  simp only [subWordsAux, if_pos hp, h]
  congr 1
  have hd1 : (rest.dropWhile isSubWordChar).length ≤ rest.length :=
    dropWhile_length_le _ rest
  rw [h] at hd1
  have hd2 := dropWhile_length_le (fun c2 => !isSubWordChar c2) (d :: rest2)
  exact subWordsAux_fuel rest.length _ (by omega) _ _ (by omega) (by omega)

theorem wordRuns_nil : wordRuns [] = [] := rfl

theorem wordRuns_cons_pos (c : Char) (rest : List Char)
    (hp : isSubWordChar c) :
    wordRuns (c :: rest) =
      (c :: rest.takeWhile isSubWordChar) :: wordRuns (rest.dropWhile isSubWordChar) := by
  show runsOfAux _ (rest.length + 1) (c :: rest) = _
  simp only [runsOfAux, if_pos hp]
  congr 1
  have hd := dropWhile_length_le isSubWordChar rest
  exact runsOfAux_fuel _ rest.length _ (by omega) _ _ (by omega) (by omega)

theorem wordRuns_cons_neg (c : Char) (rest : List Char)
    (hp : ¬ isSubWordChar c) : wordRuns (c :: rest) = wordRuns rest := by
  show runsOfAux _ (rest.length + 1) (c :: rest) = runsOfAux _ rest.length rest
  simp only [runsOfAux, if_neg hp]

theorem endsInRun_nil : endsInRun [] = false := rfl

theorem endsInRun_single (c : Char) : endsInRun [c] = isSubWordChar c := rfl

theorem endsInRun_cons_cons (c d : Char) (t : List Char) :
    endsInRun (c :: d :: t) = endsInRun (d :: t) := by
  simp only [endsInRun, List.getLast?_cons_cons]

/-- Skipping the separator run before the next word changes neither the
runs nor whether the input ends inside a run. -/
theorem wordRuns_dropSep (l : List Char) :
    wordRuns (l.dropWhile (fun c => !isSubWordChar c)) = wordRuns l := by
  induction l with
  | nil => rfl
  | cons c rest ih =>
    by_cases hp : isSubWordChar c
    · rw [List.dropWhile_cons, if_neg (by simp [hp])]
    · rw [List.dropWhile_cons, if_pos (by simp [hp]), ih, wordRuns_cons_neg c rest hp]

theorem endsInRun_dropSep (l : List Char) :
    endsInRun (l.dropWhile (fun c => !isSubWordChar c)) = endsInRun l := by
  induction l with
  | nil => rfl
  | cons c rest ih =>
    by_cases hp : isSubWordChar c
    · rw [List.dropWhile_cons, if_neg (by simp [hp])]
    · rw [List.dropWhile_cons, if_pos (by simp [hp]), ih]
      cases rest with
      | nil =>
        rw [endsInRun_nil, endsInRun_single]
        simp [hp]
      | cons d t => rw [endsInRun_cons_cons]

theorem endsInRun_wordRuns_ne (l : List Char) (h : endsInRun l = true) :
    wordRuns l ≠ [] := by
  induction l with
  | nil => simp [endsInRun] at h
  | cons c rest ih =>
    by_cases hp : isSubWordChar c
    · rw [wordRuns_cons_pos c rest hp]
      simp
    · rw [wordRuns_cons_neg c rest hp]
      cases rest with
      | nil =>
        rw [endsInRun_single] at h
        exact absurd h hp
      | cons d t =>
        rw [endsInRun_cons_cons] at h
        exact ih h

theorem dropLast_cons_of_ne {α : Type} (a : α) (x : List α) (h : x ≠ []) :
    (a :: x).dropLast = a :: x.dropLast := by
  cases x with
  | nil => exact absurd rfl h
  | cons b t => rfl

theorem takeWhile_append_dropWhile_eq (p : Char → Bool) (l : List Char) :
    l.takeWhile p ++ l.dropWhile p = l := by
  induction l with
  | nil => rfl
  | cons c rest ih =>
    by_cases hp : p c
    · rw [List.takeWhile_cons, List.dropWhile_cons, if_pos hp, if_pos hp,
        List.cons_append, ih]
    · rw [List.takeWhile_cons, List.dropWhile_cons, if_neg hp, if_neg hp,
        List.nil_append]

/-- The separator-required extraction agrees with the maximal-run
tokenization except that a final run reaching the end of the input is
dropped. -/
theorem subWordsList_spec :
    ∀ (n : Nat) (l : List Char), l.length ≤ n →
      subWordsList l =
        (if endsInRun l then (wordRuns l).dropLast else wordRuns l).map String.mk := by
  intro n
  induction n with
  | zero =>
    intro l hl
    have hnil : l = [] := List.length_eq_zero.mp (Nat.le_zero.mp hl)
    subst hnil
    rfl
  | succ n ih =>
    intro l hl
    cases l with
    | nil => rfl
    | cons c rest =>
      simp only [List.length_cons] at hl
      by_cases hp : isSubWordChar c
      · cases hrest : rest.dropWhile isSubWordChar with
        | nil =>
          -- the whole remainder is one run reaching the end: dropped
          rw [subWordsList_cons_end c rest hp hrest,
            wordRuns_cons_pos c rest hp, hrest, wordRuns_nil]
          have hall : ∀ x ∈ rest, isSubWordChar x :=
            List.dropWhile_eq_nil_iff.mp hrest
          have hend : endsInRun (c :: rest) = true := by
            cases hg : (c :: rest).getLast? with
            | none => simp [List.getLast?_eq_none_iff] at hg
            | some d =>
              have hd : d ∈ c :: rest := by
                obtain ⟨hne, hd2⟩ :=
                  List.mem_getLast?_eq_getLast (show d ∈ (c :: rest).getLast? from hg)
                rw [hd2]
                exact List.getLast_mem hne
              simp only [endsInRun, hg]
              rcases List.mem_cons.mp hd with h1 | h1
              · rw [h1]; exact hp
              · exact hall d h1
          rw [hend]
          rfl
        | cons d rest2 =>
          have hlen1 : (rest.dropWhile isSubWordChar).length ≤ rest.length :=
            dropWhile_length_le _ rest
          rw [hrest] at hlen1
          have hlen2 := dropWhile_length_le (fun c2 => !isSubWordChar c2) (d :: rest2)
          rw [subWordsList_cons_mid c rest d rest2 hp hrest,
            ih ((d :: rest2).dropWhile (fun c2 => !isSubWordChar c2)) (by omega),
            wordRuns_dropSep, endsInRun_dropSep,
            wordRuns_cons_pos c rest hp, hrest]
          have hsplit : c :: rest =
              (c :: rest.takeWhile isSubWordChar) ++ (d :: rest2) := by
            rw [List.cons_append]
            rw [← hrest, takeWhile_append_dropWhile_eq]
          have hend : endsInRun (c :: rest) = endsInRun (d :: rest2) := by
            rw [hsplit]
            simp only [endsInRun, List.getLast?_append_cons]
          rw [hend]
          by_cases he : endsInRun (d :: rest2)
          · rw [if_pos he, if_pos he,
              dropLast_cons_of_ne _ _ (endsInRun_wordRuns_ne (d :: rest2) he)]
            rfl
          · rw [if_neg he, if_neg he]
            rfl
      · rw [subWordsList_cons_neg c rest hp, ih rest (by omega),
          wordRuns_cons_neg c rest hp]
        cases rest with
        | nil =>
          rw [endsInRun_nil, endsInRun_single]
          simp [hp]
        | cons d t => rw [endsInRun_cons_cons]

theorem mem_of_mem_dropLast {α : Type} {x : α} :
    ∀ {l : List α}, x ∈ l.dropLast → x ∈ l := by
  intro l
  induction l with
  | nil => intro h; simp at h
  | cons a t ih =>
    intro h
    cases t with
    | nil => simp at h
    | cons b u =>
      rw [dropLast_cons_of_ne a (b :: u) (by simp)] at h
      rcases List.mem_cons.mp h with h1 | h1
      · rw [h1]; exact List.mem_cons_self _ _
      · exact List.mem_cons_of_mem _ (ih h1)

theorem wordRuns_prop :
    ∀ (n : Nat) (l : List Char), l.length ≤ n → ∀ r ∈ wordRuns l,
      r ≠ [] ∧ ∀ c ∈ r, isSubWordChar c = true := by
  intro n
  induction n with
  | zero =>
    intro l hl r hr
    have hnil : l = [] := List.length_eq_zero.mp (Nat.le_zero.mp hl)
    subst hnil
    simp [wordRuns_nil] at hr
  | succ n ih =>
    intro l hl r hr
    cases l with
    | nil => simp [wordRuns_nil] at hr
    | cons c rest =>
      simp only [List.length_cons] at hl
      by_cases hp : isSubWordChar c
      · rw [wordRuns_cons_pos c rest hp] at hr
        rcases List.mem_cons.mp hr with h1 | h1
        · subst h1
          refine ⟨by simp, ?_⟩
          intro x hx
          rcases List.mem_cons.mp hx with h2 | h2
          · rw [h2]; exact hp
          · exact List.mem_takeWhile_imp h2
        · have hlen := dropWhile_length_le isSubWordChar rest
          exact ih (rest.dropWhile isSubWordChar) (by omega) r h1
      · rw [wordRuns_cons_neg c rest hp] at hr
        exact ih rest (by omega) r hr

/-- Claim C9 (amended): word extraction yields the ordered maximal
nonempty `[a-z']` runs — every token is nonempty and made only of
ASCII lowercase letters and apostrophes (so no digit, whitespace or
other punctuation) — EXCEPT that a final run reaching the end of the
input is dropped, because the word regex demands at least one
separator character after the run (see `c9_counterexample`). -/
theorem c9_word_extraction (s : String) :
    subWords s =
      (if endsInRun s.data then (wordRuns s.data).dropLast
       else wordRuns s.data).map String.mk ∧
    ∀ w ∈ subWords s, w.data ≠ [] ∧ ∀ c ∈ w.data, isSubWordChar c = true := by
  have hmain : subWords s =
      (if endsInRun s.data then (wordRuns s.data).dropLast
       else wordRuns s.data).map String.mk := by
    rw [subWords_eq_list]
    exact subWordsList_spec s.data.length s.data (Nat.le_refl _)
  refine ⟨hmain, ?_⟩
  intro w hw
  rw [hmain] at hw
  obtain ⟨r, hr, hwr⟩ := List.mem_map.mp hw
  have hr2 : r ∈ wordRuns s.data := by
    by_cases he : endsInRun s.data
    · rw [if_pos he] at hr
      exact mem_of_mem_dropLast hr
    · rw [if_neg he] at hr
      exact hr
  have hprop := wordRuns_prop s.data.length s.data (Nat.le_refl _) r hr2
  rw [← hwr]
  exact hprop

/-- Claim C9 counterexample: the input `hello` consists of one maximal
alphabetic run that reaches the end of the input; the claim demands it
be emitted, but the extractor emits nothing. -/
theorem c9_counterexample :
    subWords "hello" = [] ∧ wordRuns "hello".data = ["hello".data] := by
  constructor <;> decide

/-! ### String plumbing lemmas -/

theorem strMk_data (s : String) : String.mk s.data = s := by
  cases s; rfl

theorem strAppend_empty (s : String) : s ++ "" = s := by
  cases s with
  | mk l =>
    show String.mk (l ++ []) = String.mk l
    rw [List.append_nil]

theorem strEmpty_append (s : String) : "" ++ s = s := by
  cases s with
  | mk l =>
    show String.mk ([] ++ l) = String.mk l
    rw [List.nil_append]

theorem strAppend_assoc (a b c : String) : a ++ b ++ c = a ++ (b ++ c) := by
  cases a; cases b; cases c
  show String.mk _ = String.mk _
  rw [List.append_assoc]

theorem strJoin_append (a b : List String) :
    strJoin (a ++ b) = strJoin a ++ strJoin b := by
  induction a with
  | nil => rw [List.nil_append, strJoin, strEmpty_append]
  | cons s rest ih => rw [List.cons_append, strJoin, strJoin, ih, strAppend_assoc]

/-- Scanning characters that contain no `\n` only accumulates them. -/
theorem rustLinesAux_append_no_nl (l : List Char) (h : ∀ c ∈ l, c ≠ '\n') :
    ∀ (acc rest : List Char),
      rustLinesAux (l ++ rest) acc = rustLinesAux rest (l.reverse ++ acc) := by
  induction l with
  | nil => intro acc rest; rw [List.nil_append, List.reverse_nil, List.nil_append]
  | cons c t ih =>
    intro acc rest
    have hc : c ≠ '\n' := h c (List.mem_cons_self _ _)
    rw [List.cons_append]
    show rustLinesAux (c :: (t ++ rest)) acc = _
    rw [rustLinesAux, if_neg (by simpa using hc),
      ih (fun x hx => h x (List.mem_cons_of_mem _ hx)) (c :: acc),
      List.reverse_cons, List.append_assoc, List.singleton_append]

/-- `str::lines` of a CRLF-terminated concatenation of `\n`-free pieces
recovers exactly the pieces.  This is how both the translated-chunk
splitting and the dictionary-file line structure are read. -/
theorem rustLines_join_crlf (us : List String)
    (h : ∀ u ∈ us, ∀ c ∈ u.data, c ≠ '\n') :
    rustLines (strJoin (us.map (fun u => u ++ "\r\n"))) = us := by
  induction us with
  | nil => rfl
  | cons u rest ih =>
    rw [List.map_cons, strJoin]
    have hdata : (u ++ "\r\n" ++ strJoin (rest.map (fun v => v ++ "\r\n"))).data =
        u.data ++ ('\r' :: '\n' :: (strJoin (rest.map (fun v => v ++ "\r\n"))).data) := by
      rw [String.data_append, String.data_append]
      rw [List.append_assoc]
      rfl
    rw [rustLines, hdata,
      rustLinesAux_append_no_nl u.data (h u (List.mem_cons_self _ _)) []]
    rw [rustLinesAux, if_neg (by decide)]
    rw [rustLinesAux, if_pos rfl]
    have hacc : dropTrailingCRrev ('\r' :: (u.data.reverse ++ [])) =
        u.data.reverse := by
      rw [dropTrailingCRrev, List.append_nil]
    rw [hacc, List.reverse_reverse, strMk_data]
    rw [← rustLines]
    rw [ih (fun v hv => h v (List.mem_cons_of_mem _ hv))]

/-! ### Dictionary persistence (claim C7) -/

theorem charEq_of_toNat_eq (a b : Char) (h : a.toNat = b.toNat) : a = b := by
  have ha := Char.ofNat_toNat a
  have hb := Char.ofNat_toNat b
  rw [← ha, ← hb, h]

theorem listLex_cons (a b : Char) (as bs : List Char) :
    listLex (a :: as) (b :: bs) =
      if a.toNat < b.toNat then true
      else if b.toNat < a.toNat then false
      else listLex as bs := rfl

theorem listLex_total : ∀ a b : List Char, listLex a b = true ∨ listLex b a = true := by
  intro a
  induction a with
  | nil => intro b; left; rfl
  | cons x as ih =>
    intro b
    cases b with
    | nil => right; rfl
    | cons y bs =>
      rw [listLex_cons, listLex_cons]
      rcases Nat.lt_trichotomy x.toNat y.toNat with h | h | h
      · left; rw [if_pos h]
      · rw [if_neg (by omega), if_neg (by omega), if_neg (by omega), if_neg (by omega)]
        exact ih bs
      · right; rw [if_pos h]

theorem listLex_trans :
    ∀ a b c : List Char, listLex a b = true → listLex b c = true →
      listLex a c = true := by
  intro a
  induction a with
  | nil => intro b c _ _; rfl
  | cons x as ih =>
    intro b c hab hbc
    cases b with
    | nil => simp [listLex] at hab
    | cons y bs =>
      cases c with
      | nil => simp [listLex] at hbc
      | cons z cs =>
        rw [listLex_cons] at hab hbc ⊢
        by_cases hxy : x.toNat < y.toNat
        · by_cases hyz : y.toNat < z.toNat
          · rw [if_pos (by omega)]
          · rw [if_neg hyz] at hbc
            by_cases hzy : z.toNat < y.toNat
            · rw [if_pos hzy] at hbc
              exact absurd hbc (by simp)
            · rw [if_pos (by omega)]
        · rw [if_neg hxy] at hab
          by_cases hyx : y.toNat < x.toNat
          · rw [if_pos hyx] at hab
            exact absurd hab (by simp)
          · rw [if_neg hyx] at hab
            by_cases hyz : y.toNat < z.toNat
            · rw [if_pos (by omega)]
            · rw [if_neg hyz] at hbc
              by_cases hzy : z.toNat < y.toNat
              · rw [if_pos hzy] at hbc
                exact absurd hbc (by simp)
              · rw [if_neg hzy] at hbc
                rw [if_neg (by omega), if_neg (by omega)]
                exact ih bs cs hab hbc

theorem listLex_antisymm :
    ∀ a b : List Char, listLex a b = true → listLex b a = true → a = b := by
  intro a
  induction a with
  | nil =>
    intro b _ hba
    cases b with
    | nil => rfl
    | cons y bs => simp [listLex] at hba
  | cons x as ih =>
    intro b hab hba
    cases b with
    | nil => simp [listLex] at hab
    | cons y bs =>
      rw [listLex_cons] at hab hba
      by_cases hxy : x.toNat < y.toNat
      · rw [if_neg (by omega), if_pos hxy] at hba
        exact absurd hba (by simp)
      · rw [if_neg hxy] at hab
        by_cases hyx : y.toNat < x.toNat
        · rw [if_pos hyx] at hab
          exact absurd hab (by simp)
        · rw [if_neg hyx] at hab
          rw [if_neg hyx, if_neg hxy] at hba
          rw [charEq_of_toNat_eq x y (by omega), ih bs hab hba]

@[instance] theorem pairLeTotal :
    IsTotal (String × WordKind) (fun a b => strLeb a.1 b.1 = true) :=
  ⟨fun a b => listLex_total a.1.data b.1.data⟩

@[instance] theorem pairLeTrans :
    IsTrans (String × WordKind) (fun a b => strLeb a.1 b.1 = true) :=
  ⟨fun _ _ _ h1 h2 => listLex_trans _ _ _ h1 h2⟩

@[instance] theorem strLebTotal : IsTotal String (fun a b => strLeb a b = true) :=
  ⟨fun a b => listLex_total a.data b.data⟩

@[instance] theorem strLebTrans : IsTrans String (fun a b => strLeb a b = true) :=
  ⟨fun _ _ _ h1 h2 => listLex_trans _ _ _ h1 h2⟩

@[instance] theorem strLebAntisymm : IsAntisymm String (fun a b => strLeb a b = true) :=
  ⟨fun a b h1 h2 => by
    cases a; cases b
    exact congrArg String.mk (listLex_antisymm _ _ h1 h2)⟩

/-- Each category fold of `persistDict` appends one line per record of
its category, in list order. -/
theorem foldl_kind_line (k : WordKind) (pre : String)
    (body : String → String × WordKind → String)
    (hbody : ∀ s w, body s w = if w.2 = k then s ++ ((pre ++ w.1) ++ "\r\n") else s) :
    ∀ (l : List (String × WordKind)) (init : String),
      l.foldl body init =
        init ++ strJoin ((l.filter (fun w => decide (w.2 = k))).map
          (fun w => (pre ++ w.1) ++ "\r\n")) := by
  intro l
  induction l with
  | nil => intro init; rw [List.filter_nil, List.map_nil, strJoin, strAppend_empty]; rfl
  | cons w rest ih =>
    intro init
    rw [List.foldl_cons, hbody]
    by_cases hw : w.2 = k
    · rw [if_pos hw, List.filter_cons_of_pos (by simpa using hw), List.map_cons,
        strJoin, ih, strAppend_assoc]
    · rw [if_neg hw, List.filter_cons_of_neg (by simpa using hw), ih]

theorem persistDict_eq_join (ws : List (String × WordKind)) :
    persistDict ws =
      strJoin
        ((((List.insertionSort (fun a b : String × WordKind => strLeb a.1 b.1 = true) ws).filter
            (fun w => decide (w.2 = WordKind.New))).map
          (fun w => ("?:" ++ w.1) ++ "\r\n")) ++
        (((List.insertionSort (fun a b : String × WordKind => strLeb a.1 b.1 = true) ws).filter
            (fun w => decide (w.2 = WordKind.Unknown))).map
          (fun w => ("u:" ++ w.1) ++ "\r\n")) ++
        (((List.insertionSort (fun a b : String × WordKind => strLeb a.1 b.1 = true) ws).filter
            (fun w => decide (w.2 = WordKind.Known))).map
          (fun w => ("k:" ++ w.1) ++ "\r\n"))) := by
  have hNew := foldl_kind_line WordKind.New "?:"
    (fun s w => match w.2 with
      | WordKind.New => s ++ "?:" ++ w.1 ++ "\r\n"
      | _ => s)
    (by
      intro s w
      obtain ⟨wt, wk⟩ := w
      cases wk with
      | New => rw [if_pos rfl]; simp only [strAppend_assoc]
      | Unknown => rw [if_neg (fun hc => WordKind.noConfusion hc)]
      | Known => rw [if_neg (fun hc => WordKind.noConfusion hc)])
  have hUnknown := foldl_kind_line WordKind.Unknown "u:"
    (fun s w => match w.2 with
      | WordKind.Unknown => s ++ "u:" ++ w.1 ++ "\r\n"
      | _ => s)
    (by
      intro s w
      obtain ⟨wt, wk⟩ := w
      cases wk with
      | Unknown => rw [if_pos rfl]; simp only [strAppend_assoc]
      | New => rw [if_neg (fun hc => WordKind.noConfusion hc)]
      | Known => rw [if_neg (fun hc => WordKind.noConfusion hc)])
  have hKnown := foldl_kind_line WordKind.Known "k:"
    (fun s w => match w.2 with
      | WordKind.Known => s ++ "k:" ++ w.1 ++ "\r\n"
      | _ => s)
    (by
      intro s w
      obtain ⟨wt, wk⟩ := w
      cases wk with
      | Known => rw [if_pos rfl]; simp only [strAppend_assoc]
      | New => rw [if_neg (fun hc => WordKind.noConfusion hc)]
      | Unknown => rw [if_neg (fun hc => WordKind.noConfusion hc)])
  simp only [persistDict]
  rw [hKnown, hUnknown, hNew, strEmpty_append, strJoin_append, strJoin_append]

/-- Filtering a list sorted on word text and projecting to the texts
gives the same result as sorting the projection of the filtered list:
sorting and category grouping commute. -/
theorem filter_sort_map_comm (ws : List (String × WordKind)) (k : WordKind) :
    ((List.insertionSort (fun a b : String × WordKind => strLeb a.1 b.1 = true) ws).filter
        (fun w => decide (w.2 = k))).map Prod.fst =
      sortStrings ((ws.filter (fun w => decide (w.2 = k))).map Prod.fst) := by
  apply List.eq_of_perm_of_sorted (r := fun a b : String => strLeb a b = true)
  · exact (((List.perm_insertionSort _ ws).filter _).map _).trans
      (List.perm_insertionSort _ _).symm
  · exact ((List.sorted_insertionSort
      (fun a b : String × WordKind => strLeb a.1 b.1 = true) ws).filter _).map _
      (fun _ _ h => h)
  · exact List.sorted_insertionSort _ _

/-- Claim C7 (confirmed): the persisted dictionary text is exactly one
`<category_char>:<word>` line per record, `?` lines first, then `u`
lines, then `k` lines, each group sorted lexicographically by word
text.  (Words may not contain `\n`, which holds of every word either
parsed from the dictionary file or extracted from the subtitles.) -/
theorem c7_dictionary_persistence (ws : List (String × WordKind))
    (hNL : ∀ p ∈ ws, ∀ c ∈ p.1.data, c ≠ '\n') :
    rustLines (persistDict ws) =
      (sortStrings ((ws.filter (fun w => decide (w.2 = WordKind.New))).map Prod.fst)).map
        (fun w => "?:" ++ w) ++
      (sortStrings ((ws.filter (fun w => decide (w.2 = WordKind.Unknown))).map Prod.fst)).map
        (fun w => "u:" ++ w) ++
      (sortStrings ((ws.filter (fun w => decide (w.2 = WordKind.Known))).map Prod.fst)).map
        (fun w => "k:" ++ w) := by
  have hconv : ∀ (k : WordKind) (pre : String),
      ((List.insertionSort (fun a b : String × WordKind => strLeb a.1 b.1 = true) ws).filter
          (fun w => decide (w.2 = k))).map (fun w => (pre ++ w.1) ++ "\r\n") =
        ((sortStrings ((ws.filter (fun w => decide (w.2 = k))).map Prod.fst)).map
          (fun w => pre ++ w)).map (fun u => u ++ "\r\n") := by
    intro k pre
    rw [← filter_sort_map_comm ws k, List.map_map, List.map_map]
    rfl
  have hword : ∀ (k : WordKind) (w : String),
      w ∈ sortStrings ((ws.filter (fun p => decide (p.2 = k))).map Prod.fst) →
      ∀ c ∈ w.data, c ≠ '\n' := by
    intro k w hw c hc
    have hw2 : w ∈ (ws.filter (fun p => decide (p.2 = k))).map Prod.fst :=
      ((List.perm_insertionSort _ _).mem_iff).mp hw
    obtain ⟨p, hp, hpe⟩ := List.mem_map.mp hw2
    rw [← hpe] at hc
    exact hNL p (List.mem_of_mem_filter hp) c hc
  have hpre : ∀ (k : WordKind) (pre : String), ('\n' ∉ pre.data) →
      ∀ u ∈ (sortStrings ((ws.filter (fun p => decide (p.2 = k))).map Prod.fst)).map
        (fun w => pre ++ w), ∀ c ∈ u.data, c ≠ '\n' := by
    intro k pre hpn u hu c hc
    obtain ⟨w, hw, hwe⟩ := List.mem_map.mp hu
    rw [← hwe, String.data_append] at hc
    rcases List.mem_append.mp hc with h | h
    · intro hce
      rw [hce] at h
      exact hpn h
    · exact hword k w hw c h
  have hfree : ∀ u ∈
      ((sortStrings ((ws.filter (fun p => decide (p.2 = WordKind.New))).map Prod.fst)).map
          (fun w => "?:" ++ w) ++
        (sortStrings ((ws.filter (fun p => decide (p.2 = WordKind.Unknown))).map Prod.fst)).map
          (fun w => "u:" ++ w) ++
        (sortStrings ((ws.filter (fun p => decide (p.2 = WordKind.Known))).map Prod.fst)).map
          (fun w => "k:" ++ w)),
      ∀ c ∈ u.data, c ≠ '\n' := by
    intro u hu
    rcases List.mem_append.mp hu with hu12 | hu3
    · rcases List.mem_append.mp hu12 with hu1 | hu2
      · exact hpre WordKind.New "?:" (by decide) u hu1
      · exact hpre WordKind.Unknown "u:" (by decide) u hu2
    · exact hpre WordKind.Known "k:" (by decide) u hu3
  rw [persistDict_eq_join ws, hconv WordKind.New "?:", hconv WordKind.Unknown "u:",
    hconv WordKind.Known "k:", ← List.map_append, ← List.map_append]
  exact rustLines_join_crlf _ hfree

theorem c7_dictionary_persistence_witness :
    (∀ p ∈ [("b", WordKind.Known), ("a", WordKind.New), ("c", WordKind.Unknown),
        ("aa", WordKind.New)], ∀ c ∈ (Prod.fst p).data, c ≠ '\n') ∧
    rustLines (persistDict [("b", WordKind.Known), ("a", WordKind.New),
        ("c", WordKind.Unknown), ("aa", WordKind.New)]) =
      ["?:a", "?:aa", "u:c", "k:b"] :=
  ⟨by decide, by
    have h := c7_dictionary_persistence
      [("b", WordKind.Known), ("a", WordKind.New), ("c", WordKind.Unknown),
        ("aa", WordKind.New)] (by decide)
    rw [h]
    decide⟩

theorem runsList_nil (p : Char → Bool) : runsList p [] = [] := rfl

theorem runsList_cons_pos (p : Char → Bool) (c : Char) (rest : List Char)
    (hp : p c) :
    runsList p (c :: rest) =
      (c :: rest.takeWhile p) :: runsList p (rest.dropWhile p) := by
  show runsOfAux p (rest.length + 1) (c :: rest) = _
  simp only [runsOfAux, if_pos hp]
  congr 1
  have hd := dropWhile_length_le p rest
  exact runsOfAux_fuel p rest.length _ (by omega) _ _ (by omega) (by omega)

theorem runsList_cons_neg (p : Char → Bool) (c : Char) (rest : List Char)
    (hp : ¬ p c) : runsList p (c :: rest) = runsList p rest := by
  show runsOfAux p (rest.length + 1) (c :: rest) = runsOfAux p rest.length rest
  simp only [runsOfAux, if_neg hp]

theorem colorizeSpecAux_nil (dict : List (String × WordKind)) (fuel : Nat) :
    colorizeSpecAux dict fuel [] = [] := by
  cases fuel <;> rfl

theorem colorizeSpecAux_fuel (dict : List (String × WordKind)) :
    ∀ (n : Nat) (l : List Char), l.length ≤ n → ∀ f1 f2, l.length ≤ f1 →
      l.length ≤ f2 → colorizeSpecAux dict f1 l = colorizeSpecAux dict f2 l := by
  intro n
  induction n with
  | zero =>
    intro l hl f1 f2 _ _
    have hnil : l = [] := List.length_eq_zero.mp (Nat.le_zero.mp hl)
    subst hnil
    rw [colorizeSpecAux_nil, colorizeSpecAux_nil]
  | succ n ih =>
    intro l hl f1 f2 h1 h2
    cases l with
    | nil => rw [colorizeSpecAux_nil, colorizeSpecAux_nil]
    | cons c rest =>
      simp only [List.length_cons] at hl h1 h2
      cases f1 with
      | zero => omega
      | succ g1 =>
        cases f2 with
        | zero => omega
        | succ g2 =>
          simp only [colorizeSpecAux]
          by_cases hp : isColorWordChar c
          · rw [if_pos hp, if_pos hp]
            have hd := dropWhile_length_le isColorWordChar rest
            rw [ih (rest.dropWhile isColorWordChar) (by omega) g1 g2 (by omega) (by omega)]
          · rw [if_neg hp, if_neg hp]
            rw [ih rest (by omega) g1 g2 (by omega) (by omega)]

theorem colorizeAux_nil (dict : List (String × WordKind)) (fuel : Nat) :
    colorizeAux dict fuel [] = ([], false) := by
  cases fuel <;> rfl

theorem colorizeAux_fuel (dict : List (String × WordKind)) :
    ∀ (n : Nat) (l : List Char), l.length ≤ n → ∀ f1 f2, l.length ≤ f1 →
      l.length ≤ f2 → colorizeAux dict f1 l = colorizeAux dict f2 l := by
  intro n
  induction n with
  | zero =>
    intro l hl f1 f2 _ _
    have hnil : l = [] := List.length_eq_zero.mp (Nat.le_zero.mp hl)
    subst hnil
    rw [colorizeAux_nil, colorizeAux_nil]
  | succ n ih =>
    intro l hl f1 f2 h1 h2
    cases l with
    | nil => rw [colorizeAux_nil, colorizeAux_nil]
    | cons c rest =>
      simp only [List.length_cons] at hl h1 h2
      cases f1 with
      | zero => omega
      | succ g1 =>
        cases f2 with
        | zero => omega
        | succ g2 =>
          simp only [colorizeAux]
          by_cases hp : isColorWordChar c
          · rw [if_pos hp, if_pos hp]
            have hd := dropWhile_length_le isColorWordChar rest
            rw [ih (rest.dropWhile isColorWordChar) (by omega) g1 g2 (by omega) (by omega)]
          · rw [if_neg hp, if_neg hp]
            rw [ih rest (by omega) g1 g2 (by omega) (by omega)]

theorem colorize_eq_list (dict : List (String × WordKind)) (s : String) :
    colorize dict s = (String.mk (colorizeList dict s.data).1, (colorizeList dict s.data).2) := rfl

theorem colorizeList_cons_neg (dict : List (String × WordKind)) (c : Char)
    (rest : List Char) (hp : ¬ isColorWordChar c) :
    colorizeList dict (c :: rest) =
      ((c :: (colorizeList dict rest).1), (colorizeList dict rest).2) := by
  show colorizeAux dict (rest.length + 1) (c :: rest) = _
  simp only [colorizeAux, if_neg hp]
  rfl

theorem colorizeList_cons_pos (dict : List (String × WordKind)) (c : Char)
    (rest : List Char) (hp : isColorWordChar c) :
    colorizeList dict (c :: rest) =
      (match dictGet dict (String.mk ((c :: rest.takeWhile isColorWordChar).map lowerChar)) with
        | some WordKind.Known =>
          ((c :: rest.takeWhile isColorWordChar) ++
            (colorizeList dict (rest.dropWhile isColorWordChar)).1,
           (colorizeList dict (rest.dropWhile isColorWordChar)).2)
        | some _ =>
          (highlightWord (c :: rest.takeWhile isColorWordChar) ++
            (colorizeList dict (rest.dropWhile isColorWordChar)).1, true)
        | none =>
          ((c :: rest.takeWhile isColorWordChar) ++
            (colorizeList dict (rest.dropWhile isColorWordChar)).1,
           (colorizeList dict (rest.dropWhile isColorWordChar)).2)) := by
  show colorizeAux dict (rest.length + 1) (c :: rest) = _
  simp only [colorizeAux, if_pos hp]
  have hd := dropWhile_length_le isColorWordChar rest
  rw [colorizeAux_fuel dict rest.length (rest.dropWhile isColorWordChar) (by omega)
    rest.length (rest.dropWhile isColorWordChar).length (by omega) (by omega)]
  rfl

theorem colorizeList_cons_known (dict : List (String × WordKind)) (c : Char)
    (rest : List Char) (hp : isColorWordChar c)
    (hdg : dictGet dict (String.mk ((c :: rest.takeWhile isColorWordChar).map lowerChar)) =
      some WordKind.Known) :
    colorizeList dict (c :: rest) =
      ((c :: rest.takeWhile isColorWordChar) ++
        (colorizeList dict (rest.dropWhile isColorWordChar)).1,
       (colorizeList dict (rest.dropWhile isColorWordChar)).2) := by
  rw [colorizeList_cons_pos dict c rest hp, hdg]

theorem colorizeList_cons_none (dict : List (String × WordKind)) (c : Char)
    (rest : List Char) (hp : isColorWordChar c)
    (hdg : dictGet dict (String.mk ((c :: rest.takeWhile isColorWordChar).map lowerChar)) =
      none) :
    colorizeList dict (c :: rest) =
      ((c :: rest.takeWhile isColorWordChar) ++
        (colorizeList dict (rest.dropWhile isColorWordChar)).1,
       (colorizeList dict (rest.dropWhile isColorWordChar)).2) := by
  rw [colorizeList_cons_pos dict c rest hp, hdg]

theorem colorizeList_cons_unknown (dict : List (String × WordKind)) (c : Char)
    (rest : List Char) (hp : isColorWordChar c)
    (hdg : dictGet dict (String.mk ((c :: rest.takeWhile isColorWordChar).map lowerChar)) =
      some WordKind.Unknown) :
    colorizeList dict (c :: rest) =
      (highlightWord (c :: rest.takeWhile isColorWordChar) ++
        (colorizeList dict (rest.dropWhile isColorWordChar)).1, true) := by
  rw [colorizeList_cons_pos dict c rest hp, hdg]

theorem colorizeList_cons_new (dict : List (String × WordKind)) (c : Char)
    (rest : List Char) (hp : isColorWordChar c)
    (hdg : dictGet dict (String.mk ((c :: rest.takeWhile isColorWordChar).map lowerChar)) =
      some WordKind.New) :
    colorizeList dict (c :: rest) =
      (highlightWord (c :: rest.takeWhile isColorWordChar) ++
        (colorizeList dict (rest.dropWhile isColorWordChar)).1, true) := by
  rw [colorizeList_cons_pos dict c rest hp, hdg]

theorem colorizeSpecList_cons_neg (dict : List (String × WordKind)) (c : Char)
    (rest : List Char) (hp : ¬ isColorWordChar c) :
    colorizeSpecList dict (c :: rest) = c :: colorizeSpecList dict rest := by
  show colorizeSpecAux dict (rest.length + 1) (c :: rest) = _
  simp only [colorizeSpecAux, if_neg hp]
  rfl

theorem colorizeSpecList_cons_pos (dict : List (String × WordKind)) (c : Char)
    (rest : List Char) (hp : isColorWordChar c) :
    colorizeSpecList dict (c :: rest) =
      (match dictGet dict (String.mk ((c :: rest.takeWhile isColorWordChar).map lowerChar)) with
        | some WordKind.Known => c :: rest.takeWhile isColorWordChar
        | some _ => highlightWord (c :: rest.takeWhile isColorWordChar)
        | none => c :: rest.takeWhile isColorWordChar) ++
        colorizeSpecList dict (rest.dropWhile isColorWordChar) := by
  show colorizeSpecAux dict (rest.length + 1) (c :: rest) = _
  simp only [colorizeSpecAux, if_pos hp]
  have hd := dropWhile_length_le isColorWordChar rest
  rw [colorizeSpecAux_fuel dict rest.length (rest.dropWhile isColorWordChar) (by omega)
    rest.length (rest.dropWhile isColorWordChar).length (by omega) (by omega)]
  rfl

/-- The flag and the rewritten text of the highlighting pass, against
the spec-side characterization, by strong induction on the input. -/
theorem colorizeList_spec (dict : List (String × WordKind)) :
    ∀ (n : Nat) (l : List Char), l.length ≤ n →
      ((colorizeList dict l).2 = true ↔
        ∃ r ∈ runsList isColorWordChar l, runTriggers dict r) ∧
      (colorizeList dict l).1 = colorizeSpecList dict l := by
  intro n
  induction n with
  | zero =>
    intro l hl
    have hnil : l = [] := List.length_eq_zero.mp (Nat.le_zero.mp hl)
    subst hnil
    exact ⟨by simp [colorizeList, colorizeAux, runsList_nil], rfl⟩
  | succ n ih =>
    intro l hl
    cases l with
    | nil => exact ⟨by simp [colorizeList, colorizeAux, runsList_nil], rfl⟩
    | cons c rest =>
      simp only [List.length_cons] at hl
      by_cases hp : isColorWordChar c
      · have hd := dropWhile_length_le isColorWordChar rest
        obtain ⟨ihflag, ihtext⟩ := ih (rest.dropWhile isColorWordChar) (by omega)
        rw [runsList_cons_pos _ c rest hp]
        cases hdg : dictGet dict
            (String.mk ((c :: rest.takeWhile isColorWordChar).map lowerChar)) with
        | none =>
          rw [colorizeList_cons_none dict c rest hp hdg,
            colorizeSpecList_cons_pos dict c rest hp, hdg]
          refine ⟨?_, by rw [ihtext]⟩
          constructor
          · intro hflag
            obtain ⟨r, hr, htr⟩ := ihflag.mp hflag
            exact ⟨r, List.mem_cons_of_mem _ hr, htr⟩
          · rintro ⟨r, hr, htr⟩
            rcases List.mem_cons.mp hr with h1 | h1
            · obtain ⟨k, hk, _⟩ := htr
              rw [h1, hdg] at hk
              cases hk
            · exact ihflag.mpr ⟨r, h1, htr⟩
        | some k =>
          cases k with
          | Known =>
            rw [colorizeList_cons_known dict c rest hp hdg,
              colorizeSpecList_cons_pos dict c rest hp, hdg]
            refine ⟨?_, by rw [ihtext]⟩
            constructor
            · intro hflag
              obtain ⟨r, hr, htr⟩ := ihflag.mp hflag
              exact ⟨r, List.mem_cons_of_mem _ hr, htr⟩
            · rintro ⟨r, hr, htr⟩
              rcases List.mem_cons.mp hr with h1 | h1
              · obtain ⟨k2, hk2, hne⟩ := htr
                rw [h1, hdg] at hk2
                injection hk2 with hke
                exact absurd hke.symm hne
              · exact ihflag.mpr ⟨r, h1, htr⟩
          | Unknown =>
            rw [colorizeList_cons_unknown dict c rest hp hdg,
              colorizeSpecList_cons_pos dict c rest hp, hdg]
            exact ⟨⟨fun _ => ⟨c :: rest.takeWhile isColorWordChar,
              List.mem_cons_self _ _, WordKind.Unknown, hdg, by decide⟩,
              fun _ => rfl⟩, by rw [ihtext]⟩
          | New =>
            rw [colorizeList_cons_new dict c rest hp hdg,
              colorizeSpecList_cons_pos dict c rest hp, hdg]
            exact ⟨⟨fun _ => ⟨c :: rest.takeWhile isColorWordChar,
              List.mem_cons_self _ _, WordKind.New, hdg, by decide⟩,
              fun _ => rfl⟩, by rw [ihtext]⟩
      · obtain ⟨ihflag, ihtext⟩ := ih rest (by omega)
        rw [colorizeList_cons_neg dict c rest hp, runsList_cons_neg _ c rest hp,
          colorizeSpecList_cons_neg dict c rest hp]
        exact ⟨ihflag, by rw [ihtext]⟩

/-- Claim C1 (amended): in the highlighting pass, the entry is flagged
for translation exactly when some maximal alphabetic run of its text
is present in the word table with a non-`Known` classification, and
the rewritten text wraps exactly those runs in the highlight marker.
A run ABSENT from the table does not flag the entry and is not
highlighted — it is treated like `Known`, not like `New` as the claim
states (see `c1_counterexample`, where markup tags split a word so
that the stripped-text run never entered the table). -/
theorem c1_highlight_iff (dict : List (String × WordKind)) (s : String) :
    ((colorize dict s).2 = true ↔
      ∃ r ∈ colorWordRuns s.data, runTriggers dict r) ∧
    (colorize dict s).1 = colorizeSpec dict s ∧
    ∀ sub : Sub, (processSub dict sub).1.need_translation =
      ((colorize dict (collapseNL " " (stripTags sub.text))).2 || sub.need_translation) := by
  obtain ⟨hflag, htext⟩ := colorizeList_spec dict s.data.length s.data (Nat.le_refl _)
  refine ⟨?_, ?_, ?_⟩
  · rw [colorize_eq_list]
    exact hflag
  · rw [colorize_eq_list]
    show String.mk (colorizeList dict s.data).1 = String.mk (colorizeSpecList dict s.data)
    rw [htext]
  · intro sub
    show (processSub dict sub).1.need_translation = _
    unfold processSub
    cases hcol : (colorize dict (collapseNL " " (stripTags sub.text))).2
    · rw [if_neg (fun hc => Bool.false_ne_true hc), Bool.false_or]
    · rw [if_pos rfl, Bool.true_or]

/-- Claim C1 counterexample: with subtitle text `he<i>llo</i>` and an
initially empty database, the raw-text word collection inserts `he`,
`i`, `llo` — but the markup-stripped text consists of the single run
`hello`, which is absent from the merged table.  The claim says an
absent word counts as New and must be highlighted and flagged; the
program leaves the entry unhighlighted and unflagged. -/
theorem c1_counterexample :
    dictGet (mergeWords []
        (subWords (lowerStr "1\n00:00:01,000 --> 00:00:02,000\nhe<i>llo</i>\n\n")))
      "hello" = none ∧
    (translateSubs (fun _ => "")
        (mergeWords []
          (subWords (lowerStr "1\n00:00:01,000 --> 00:00:02,000\nhe<i>llo</i>\n\n")))
        (parseSubs "1\n00:00:01,000 --> 00:00:02,000\nhe<i>llo</i>\n\n")).1 =
      some [{ index := 1, start_time := ⟨0, 0, 1, 0⟩, end_time := ⟨0, 0, 2, 0⟩,
              text := "hello", need_translation := false }] := by
  constructor <;> decide

/-! ### The dead sentinel substitution (claim C4) -/

theorem collapseNLAux_id (rep : List Char) :
    ∀ (l : List Char), '\n' ∉ l → collapseNLAux rep l = l := by
  intro l
  induction l with
  | nil => intro _; rfl
  | cons c rest ih =>
    intro h
    have hc : c ≠ '\n' := fun hce => h (hce ▸ List.mem_cons_self c rest)
    have hrest : '\n' ∉ rest := fun hx => h (List.mem_cons_of_mem _ hx)
    rw [collapseNLAux.eq_def]
    split
    · rename_i heq
      exact absurd heq (by simp)
    · rename_i t heq
      injection heq with h1 h2
      exact absurd (h2.symm ▸ List.mem_cons_self '\n' t) hrest
    · rename_i t heq
      injection heq with h1 _
      exact absurd h1 hc
    · rename_i c2 t f1 f2 heq
      injection heq with h1 h2
      subst h1
      subst h2
      rw [ih hrest]

theorem collapseNLAux_no_nl_len (rep : List Char) (hrep : '\n' ∉ rep) :
    ∀ (n : Nat) (l : List Char), l.length ≤ n → '\n' ∉ collapseNLAux rep l := by
  intro n
  induction n with
  | zero =>
    intro l hl
    have hnil : l = [] := List.length_eq_zero.mp (Nat.le_zero.mp hl)
    subst hnil
    simp [collapseNLAux]
  | succ n ih =>
    intro l hl
    cases l with
    | nil => simp [collapseNLAux]
    | cons c rest =>
      simp only [List.length_cons] at hl
      rw [collapseNLAux.eq_def]
      split
      · rename_i heq
        exact absurd heq (by simp)
      · rename_i t heq
        injection heq with h1 h2
        intro hmem
        rcases List.mem_append.mp hmem with hm | hm
        · exact hrep hm
        · have ht : t.length ≤ n := by
            have := congrArg List.length h2
            simp only [List.length_cons] at this
            omega
          exact ih t ht hm
      · rename_i t heq
        injection heq with h1 h2
        intro hmem
        rcases List.mem_append.mp hmem with hm | hm
        · exact hrep hm
        · have ht : t.length ≤ n := by
            have := congrArg List.length h2
            omega
          exact ih t ht hm
      · rename_i c2 t f1 f2 heq
        injection heq with h1 h2
        intro hmem
        rcases List.mem_cons.mp hmem with hm | hm
        · exact f2 hm.symm
        · have ht : t.length ≤ n := by
            have := congrArg List.length h2
            omega
          exact ih t ht hm

theorem collapseNLAux_no_nl (rep : List Char) (hrep : '\n' ∉ rep)
    (l : List Char) : '\n' ∉ collapseNLAux rep l :=
  collapseNLAux_no_nl_len rep hrep l.length l (Nat.le_refl _)

/-- The sentinel substitution of `translate_subs` is dead code: by the
time `re_newline.replace_all(sub.text, "*")` runs, the entry's text
has already had every line break replaced by a space, so the batched
text equals the space-collapsed text and no `*` sentinel is ever
introduced. -/
theorem processSub_batch_text (dict : List (String × WordKind)) (s : Sub)
    (t : String) (h : (processSub dict s).2 = some t) :
    t = collapseNL " " (stripTags s.text) := by
  unfold processSub at h
  by_cases hc : (colorize dict (collapseNL " " (stripTags s.text))).2
  · rw [if_pos hc] at h
    have h1 : collapseNL "*" (collapseNL " " (stripTags s.text)) = t := by
      injection h
    have hmid : '\n' ∉ (collapseNL " " (stripTags s.text)).data :=
      collapseNLAux_no_nl " ".data (by decide) (stripTags s.text).data
    rw [← h1]
    show String.mk (collapseNLAux "*".data (collapseNL " " (stripTags s.text)).data) = _
    rw [collapseNLAux_id "*".data _ hmid, strMk_data]
  · rw [if_neg hc] at h
    cases h

/-- Claim C4 (code bug): for the two-line entry `hello\nworld`, flagged
via a dictionary holding both words as New, the text appended to the
batch is `hello world` — the internal line break was replaced by a
space at markup-collapse time, the `*` sentinel never appears, and the
claimed reversible substitution cannot reconstruct the break. -/
theorem c4_sentinel_dead_on_failing_input :
    (processSub [("hello", WordKind.New), ("world", WordKind.New)]
      { index := 1, start_time := ⟨0, 0, 1, 0⟩, end_time := ⟨0, 0, 2, 0⟩,
        text := "hello\nworld", need_translation := false }).2 =
      some "hello world" ∧
    ("hello world" : String) ≠ "hello*world" ∧
    '*' ∉ ("hello world" : String).data ∧
    collapseNL "*" "hello world" = "hello world" := by
  refine ⟨by decide, by decide, by decide, by decide⟩

/-! ### Effect ordering of `main` (claim C10) -/

/-- Claim C10 (confirmed): in every run the merged dictionary is
written to the dictionary file as the very first observable effect,
and every translation call occurs at a strictly later position in the
effect trace — so if any translation call fails, the dictionary file
already holds the updated merged dictionary. -/
theorem c10_dictionary_written_before_translation (analyzeMode : Bool)
    (tr : String → String) (db : List (String × WordKind)) (subsText : String) :
    (mainEvents analyzeMode tr db subsText).head? =
      some (Event.dbWrite (persistDict (mergeWords db (subWords (lowerStr subsText))))) ∧
    ∀ (i : Nat) (e : Event),
      (mainEvents analyzeMode tr db subsText).get? i = some e →
      e.isTranslateCall = true → 0 < i := by
  have hshape : ∃ rest, mainEvents analyzeMode tr db subsText =
      Event.dbWrite (persistDict (mergeWords db (subWords (lowerStr subsText)))) :: rest := by
    simp only [mainEvents]
    by_cases ha : analyzeMode
    · rw [if_pos ha]
      exact ⟨[], rfl⟩
    · rw [if_neg ha]
      cases hts : translateSubs tr (mergeWords db (subWords (lowerStr subsText)))
          (parseSubs subsText) with
      | mk fst snd =>
        cases fst with
        | some out => exact ⟨_, rfl⟩
        | none => exact ⟨_, rfl⟩
  obtain ⟨rest, hrest⟩ := hshape
  rw [hrest]
  constructor
  · rfl
  · intro i e hi htr
    cases i with
    | zero =>
      simp only [List.get?] at hi
      injection hi with hie
      rw [← hie] at htr
      cases htr
    | succ n => exact Nat.succ_pos n

theorem c10_dictionary_written_before_translation_witness :
    (mainEvents false (fun _ => "") []
        "1\n00:00:01,000 --> 00:00:02,000\nhello foo\n\n").head? =
      some (Event.dbWrite (persistDict (mergeWords []
        (subWords (lowerStr "1\n00:00:01,000 --> 00:00:02,000\nhello foo\n\n"))))) ∧
    0 < 1 :=
  ⟨(c10_dictionary_written_before_translation false (fun _ => "") []
      "1\n00:00:01,000 --> 00:00:02,000\nhello foo\n\n").1,
   (c10_dictionary_written_before_translation false (fun _ => "") []
      "1\n00:00:01,000 --> 00:00:02,000\nhello foo\n\n").2 1
     (Event.translateCall "hello foo\r\n") (by decide) (by decide)⟩

/-! ### Reassembly pairing (claim C3) -/

/-- The contents of all batches, concatenated in order, are exactly
the flagged texts: the batcher reorders nothing and loses nothing. -/
theorem batchState_join (texts : List String) (st : BatchState) :
    (texts.foldl batchStep st).flushed.flatten ++ (texts.foldl batchStep st).current =
      st.flushed.flatten ++ st.current ++ texts := by
  induction texts generalizing st with
  | nil => simp
  | cons t rest ih =>
    rw [List.foldl_cons, ih]
    unfold batchStep
    split
    · simp
    · simp

theorem runBatcher_join (texts : List String) :
    (runBatcher texts).flatten = texts := by
  have h := batchState_join texts { flushed := [], current := [], size := 0 }
  simp only [List.flatten_nil, List.nil_append] at h
  unfold runBatcher finishBatch
  split
  · rename_i hcur
    rw [hcur] at h
    simpa using h
  · rw [List.flatten_append]
    simpa using h

/-- Once the chunk holds at least one entry it never becomes empty
again, and nothing empty is flushed from it. -/
theorem runBatcher_no_empty (texts : List String) (t0 : String)
    (hhead : texts.head? = some t0) (hb : byteLen t0 ≤ MAX_CHUNK_SIZE) :
    [] ∉ runBatcher texts := by
  cases texts with
  | nil => cases hhead
  | cons t rest =>
    injection hhead with ht
    rw [← ht] at hb
    have hstep : batchStep { flushed := [], current := [], size := 0 } t =
        { flushed := [], current := [t], size := byteLen t } := by
      unfold batchStep
      rw [if_neg (by simp only [Nat.zero_add]; omega)]
      simp
    have hinv : ∀ (l : List String) (st : BatchState),
        [] ∉ st.flushed → st.current ≠ [] →
        [] ∉ (l.foldl batchStep st).flushed ∧ (l.foldl batchStep st).current ≠ [] := by
      intro l
      induction l with
      | nil => intro st h1 h2; exact ⟨h1, h2⟩
      | cons x xs ih =>
        intro st h1 h2
        apply ih
        · unfold batchStep
          split
          · intro hmem
            rcases List.mem_append.mp hmem with hm | hm
            · exact h1 hm
            · simp only [List.mem_singleton] at hm
              exact h2 hm.symm
          · exact h1
        · unfold batchStep
          split
          · simp
          · simp
    unfold runBatcher
    rw [List.foldl_cons, hstep]
    obtain ⟨h1, h2⟩ := hinv rest { flushed := [], current := [t], size := byteLen t }
      (by simp) (by simp)
    unfold finishBatch
    split
    · exact h1
    · intro hmem
      rcases List.mem_append.mp hmem with hm | hm
      · exact h1 hm
      · simp only [List.mem_singleton] at hm
        exact h2 hm.symm

theorem strJoin_data (us : List String) :
    (strJoin us).data = (us.map String.data).flatten := by
  induction us with
  | nil => rfl
  | cons u rest ih => rw [strJoin, String.data_append, ih]; rfl

theorem strInterc_crlf_join (us : List String) (h : us ≠ []) :
    strInterc "\r\n" us ++ "\r\n" = strJoin (us.map (fun u => u ++ "\r\n")) := by
  induction us with
  | nil => exact absurd rfl h
  | cons u rest ih =>
    cases rest with
    | nil =>
      show u ++ "\r\n" = (u ++ "\r\n") ++ strJoin []
      rw [strJoin, strAppend_empty]
    | cons v vs =>
      show (u ++ "\r\n" ++ strInterc "\r\n" (v :: vs)) ++ "\r\n" = _
      rw [strAppend_assoc (u ++ "\r\n") (strInterc "\r\n" (v :: vs)) "\r\n",
        ih (by simp)]
      simp only [List.map_cons, strJoin, strAppend_assoc]

theorem strJoin_of_join (ls : List (List String)) :
    strJoin (ls.map strJoin) = strJoin ls.flatten := by
  induction ls with
  | nil => rfl
  | cons c rest ih =>
    rw [List.map_cons, strJoin, List.flatten_cons, strJoin_append, ih]

theorem join_map_map {α β : Type} (g : α → β) (L : List (List α)) :
    (L.map (List.map g)).flatten = L.flatten.map g := by
  induction L with
  | nil => rfl
  | cons c rest ih => rw [List.map_cons, List.flatten_cons, List.flatten_cons, List.map_append, ih]

theorem replaceAllAux_id (pat rep : List Char) (c0 : Char)
    (hp : pat.head? = some c0) :
    ∀ (fuel : Nat) (l : List Char), c0 ∉ l → replaceAllAux pat rep fuel l = l := by
  intro fuel
  induction fuel with
  | zero => intro l _; rfl
  | succ n ih =>
    intro l hl
    cases l with
    | nil => rfl
    | cons c rest =>
      have hc : c ≠ c0 := fun hce => hl (hce ▸ List.mem_cons_self c rest)
      have hpre : pat.isPrefixOf (c :: rest) = false := by
        cases pat with
        | nil => cases hp
        | cons p0 pt =>
          injection hp with hp0
          subst hp0
          simp only [List.isPrefixOf, Bool.and_eq_false_iff]
          left
          simp only [beq_eq_false_iff_ne, ne_eq]
          exact fun hce => hc hce.symm
      rw [replaceAllAux]
      rw [if_neg (by rw [hpre]; exact Bool.false_ne_true)]
      rw [ih rest (fun hx => hl (List.mem_cons_of_mem _ hx))]

/-- The `"\\r\\n"` unescaping is the identity on backslash-free text. -/
theorem replaceAll_esc_id (s : String) (h : '\\' ∉ s.data) :
    replaceAll "\\r\\n" "\r\n" s = s := by
  show String.mk (replaceAllAux "\\r\\n".data "\r\n".data s.data.length s.data) = s
  rw [replaceAllAux_id "\\r\\n".data "\r\n".data '\\' rfl s.data.length s.data h,
    strMk_data]

theorem translateSubs_fst (tr : String → String) (dict : List (String × WordKind))
    (subs : List Sub) :
    (translateSubs tr dict subs).1 =
      attachTranslations ((subs.map (processSub dict)).map Prod.fst)
        (translatedLines tr
          (runBatcher ((subs.map (processSub dict)).filterMap Prod.snd))) := rfl

theorem attachTranslations_nil (ls : List String) :
    attachTranslations [] ls = some [] := rfl

/-- Under the one-output-line-per-input-line capability model, the
translated line iterator delivers exactly one line per batched entry,
in batching order — provided no batch is empty. -/
theorem translatedLines_eq (tr f : String → String)
    (htr : ∀ c, tr c = strInterc "\r\n" ((rustLines c).map f))
    (hfNL : ∀ u, '\n' ∉ (f u).data)
    (hfBS : ∀ u, '\\' ∉ (f u).data)
    (chunks : List (List String))
    (hne : [] ∉ chunks)
    (htexts : ∀ t ∈ chunks.flatten, '\n' ∉ t.data) :
    translatedLines tr chunks = chunks.flatten.map f := by
  have hchunk : ∀ c ∈ chunks, tr (chunkString c) ++ "\r\n" =
      strJoin ((c.map f).map (fun u => u ++ "\r\n")) := by
    intro c hc
    have hcne : c ≠ [] := fun hce => hne (hce ▸ hc)
    rw [htr, chunkString, rustLines_join_crlf c
      (fun t ht ch hch hche =>
        htexts t (List.mem_flatten.mpr ⟨c, hc, ht⟩) (hche ▸ hch)),
      strInterc_crlf_join _ (fun hm => hcne (List.map_eq_nil_iff.mp hm))]
  have hjoin : translatedChunks tr chunks =
      strJoin (((chunks.flatten.map f)).map (fun u => u ++ "\r\n")) := by
    unfold translatedChunks
    rw [List.map_congr_left hchunk]
    have hmm : (chunks.map (fun c => strJoin ((c.map f).map (fun u => u ++ "\r\n")))) =
        (chunks.map (fun c => (c.map f).map (fun u => u ++ "\r\n"))).map strJoin := by
      rw [List.map_map]
      rfl
    rw [hmm, strJoin_of_join]
    have hmm2 : (chunks.map (fun c => (c.map f).map (fun u => u ++ "\r\n"))) =
        chunks.map (List.map (fun t => f t ++ "\r\n")) := by
      apply List.map_congr_left
      intro c _
      rw [List.map_map]
      rfl
    rw [hmm2, join_map_map, List.map_map]
    rfl
  have hBS : '\\' ∉ (strJoin (((chunks.flatten.map f)).map (fun u => u ++ "\r\n"))).data := by
    rw [strJoin_data]
    intro hmem
    rw [List.mem_flatten] at hmem
    obtain ⟨piece, hpiece, hcmem⟩ := hmem
    rw [List.mem_map] at hpiece
    obtain ⟨u, hu, hue⟩ := hpiece
    rw [List.mem_map] at hu
    obtain ⟨v, hv, hve⟩ := hu
    rw [List.mem_map] at hv
    obtain ⟨t, _, hte⟩ := hv
    rw [← hue, ← hve, String.data_append] at hcmem
    rcases List.mem_append.mp hcmem with hm | hm
    · rw [← hte] at hm
      exact hfBS t hm
    · revert hm
      decide
  unfold translatedLines
  rw [hjoin, replaceAll_esc_id _ hBS, rustLines_join_crlf]
  intro u hu
  rw [List.mem_map] at hu
  obtain ⟨t, _, hte⟩ := hu
  intro c hcm
  intro hce
  rw [← hte] at hcm
  exact hfNL t (hce ▸ hcm)

theorem attachTranslations_cons_flagged (s : Sub) (rest : List Sub)
    (l : String) (ls : List String) (h : s.need_translation = true) :
    attachTranslations (s :: rest) (l :: ls) =
      (attachTranslations rest ls).map
        (fun r => { s with text := s.text ++ "\r\n" ++ replaceAll " *" "\r\n" l } :: r) := by
  simp only [attachTranslations, h, if_true]

theorem attachTranslations_cons_unflagged (s : Sub) (rest : List Sub)
    (ls : List String) (h : s.need_translation = false) :
    attachTranslations (s :: rest) ls =
      (attachTranslations rest ls).map (fun r => s :: r) := by
  simp only [attachTranslations, h, Bool.false_eq_true, if_false]

/-- The reassembly loop, fed exactly one translated line per flagged
entry, pairs them 1:1 in order. -/
theorem attach_spec (dict : List (String × WordKind)) (f : String → String) :
    ∀ (subs : List Sub), (∀ s ∈ subs, s.need_translation = false) →
      attachTranslations ((subs.map (processSub dict)).map Prod.fst)
          (((subs.map (processSub dict)).filterMap Prod.snd).map f) =
        some (subs.map (expectedSub dict f)) := by
  intro subs
  induction subs with
  | nil => intro _; rfl
  | cons s rest ih =>
    intro hinit
    have hs0 : s.need_translation = false := hinit s (List.mem_cons_self _ _)
    have hrest : ∀ x ∈ rest, x.need_translation = false :=
      fun x hx => hinit x (List.mem_cons_of_mem _ hx)
    simp only [List.map_cons, List.filterMap_cons]
    by_cases hc : (colorize dict (collapseNL " " (stripTags s.text))).2
    · have hps : processSub dict s =
          ({ s with
              text := (colorize dict (collapseNL " " (stripTags s.text))).1
              need_translation := true },
           some (collapseNL "*" (collapseNL " " (stripTags s.text)))) := by
        unfold processSub
        rw [if_pos hc]
      rw [hps]
      dsimp only
      simp only [List.map_cons]
      rw [attachTranslations_cons_flagged _ _ _ _ rfl, ih hrest]
      have hexp : expectedSub dict f s =
          { s with
              text := (colorize dict (collapseNL " " (stripTags s.text))).1 ++ "\r\n" ++
                replaceAll " *" "\r\n"
                  (f (collapseNL "*" (collapseNL " " (stripTags s.text))))
              need_translation := true } := by
        unfold expectedSub
        rw [if_pos hc]
      rw [hexp]
      rfl
    · have hps : processSub dict s =
          ({ s with text := collapseNL " " (stripTags s.text) }, none) := by
        unfold processSub
        rw [if_neg hc]
      rw [hps]
      dsimp only
      rw [attachTranslations_cons_unflagged _ _ _ (by exact hs0), ih hrest]
      have hexp : expectedSub dict f s =
          { s with text := collapseNL " " (stripTags s.text) } := by
        unfold expectedSub
        rw [if_neg hc]
      rw [hexp]
      rfl

/-- Every batched text is the space-collapsed markup-stripped entry
text, hence free of line breaks. -/
theorem batch_texts_no_nl (dict : List (String × WordKind)) (subs : List Sub) :
    ∀ t ∈ (subs.map (processSub dict)).filterMap Prod.snd, '\n' ∉ t.data := by
  intro t ht
  rw [List.mem_filterMap] at ht
  obtain ⟨p, hp, hpe⟩ := ht
  rw [List.mem_map] at hp
  obtain ⟨s, _, hse⟩ := hp
  have hbt : (processSub dict s).2 = some t := by rw [hse]; exact hpe
  rw [processSub_batch_text dict s t hbt]
  exact collapseNLAux_no_nl " ".data (by decide) (stripTags s.text).data

/-- Claim C3 (amended): assuming the capability returns exactly one
output line per input line (modelled by a per-line translation `f`
free of line breaks and backslashes), and assuming the FIRST flagged
entry's batched text is within the 4000-byte ceiling (otherwise an
empty batch is flushed and its empty translation shifts every pairing
— see `c3_counterexample`), the reassembler pairs translated lines
onto flagged entries 1:1 and order-preservingly: the i-th flagged
entry receives exactly the translated line produced from its own
batched text. -/
theorem c3_reassembly_pairing (tr f : String → String)
    (dict : List (String × WordKind)) (subs : List Sub)
    (hinit : ∀ s ∈ subs, s.need_translation = false)
    (htr : ∀ c, tr c = strInterc "\r\n" ((rustLines c).map f))
    (hfNL : ∀ u, '\n' ∉ (f u).data)
    (hfBS : ∀ u, '\\' ∉ (f u).data)
    (hfirst : ∀ t0 ∈ ((subs.map (processSub dict)).filterMap Prod.snd).head?,
      byteLen t0 ≤ MAX_CHUNK_SIZE) :
    (translateSubs tr dict subs).1 = some (subs.map (expectedSub dict f)) := by
  have hne : [] ∉ runBatcher ((subs.map (processSub dict)).filterMap Prod.snd) := by
    cases hhead : ((subs.map (processSub dict)).filterMap Prod.snd).head? with
    | none =>
      have : (subs.map (processSub dict)).filterMap Prod.snd = [] := by
        cases htl : (subs.map (processSub dict)).filterMap Prod.snd with
        | nil => rfl
        | cons a b => rw [htl] at hhead; cases hhead
      rw [this]
      simp [runBatcher, finishBatch]
    | some t0 =>
      exact runBatcher_no_empty _ t0 hhead (hfirst t0 (by rw [hhead]; rfl))
  have hlines : translatedLines tr
      (runBatcher ((subs.map (processSub dict)).filterMap Prod.snd)) =
      ((subs.map (processSub dict)).filterMap Prod.snd).map f := by
    rw [translatedLines_eq tr f htr hfNL hfBS _ hne]
    · rw [runBatcher_join]
    · rw [runBatcher_join]
      exact batch_texts_no_nl dict subs
  rw [translateSubs_fst, hlines]
  exact attach_spec dict f subs hinit

theorem c3_reassembly_pairing_witness :
    (translateSubs
        (fun c => strInterc "\r\n" ((rustLines c).map (fun _ => "X")))
        [("ab", WordKind.New)] [sampleSub "ab"]).1 =
      some [expectedSub [("ab", WordKind.New)] (fun _ => "X") (sampleSub "ab")] := by
  refine c3_reassembly_pairing _ _ _ _ ?_ ?_ ?_ ?_ ?_
  · intro s hs
    simp only [List.mem_singleton] at hs
    rw [hs]
    rfl
  · intro c
    rfl
  · intro u
    decide
  · intro u
    decide
  · intro t0 ht0
    have hh : (([sampleSub "ab"] : List Sub).map
        (processSub [("ab", WordKind.New)])).filterMap Prod.snd = ["ab"] := by
      decide
    rw [hh] at ht0
    injection ht0 with ht1
    rw [← ht1]
    decide

theorem takeWhile_replicate_pos (p : Char → Bool) (c : Char) (n : Nat)
    (h : p c = true) : (List.replicate n c).takeWhile p = List.replicate n c := by
  induction n with
  | zero => rfl
  | succ m ih => rw [List.replicate_succ, List.takeWhile_cons, if_pos h, ih]

theorem dropWhile_replicate_pos (p : Char → Bool) (c : Char) (n : Nat)
    (h : p c = true) : (List.replicate n c).dropWhile p = [] := by
  induction n with
  | zero => rfl
  | succ m ih => rw [List.replicate_succ, List.dropWhile_cons, if_pos h, ih]

theorem stripTagsAux_id : ∀ (fuel : Nat) (l : List Char), '<' ∉ l →
    stripTagsAux fuel l = l := by
  intro fuel
  induction fuel with
  | zero => intro l _; rfl
  | succ n ih =>
    intro l hl
    cases l with
    | nil => rfl
    | cons c rest =>
      have hc : c ≠ '<' := fun hce => hl (hce ▸ List.mem_cons_self c rest)
      have hpre : ∀ (pt : List Char), ('<' :: pt).isPrefixOf (c :: rest) = false := by
        intro pt
        simp only [List.isPrefixOf, Bool.and_eq_false_iff]
        left
        simp only [beq_eq_false_iff_ne, ne_eq]
        exact fun hce => hc hce.symm
      have h1 : "<i>".data.isPrefixOf (c :: rest) = false := hpre "i>".data
      have h2 : "<b>".data.isPrefixOf (c :: rest) = false := hpre "b>".data
      have h3 : "</i>".data.isPrefixOf (c :: rest) = false := hpre "/i>".data
      have h4 : "</b>".data.isPrefixOf (c :: rest) = false := hpre "/b>".data
      rw [stripTagsAux]
      simp only [h1, h2, h3, h4, Bool.false_eq_true, if_false]
      rw [ih rest (fun hx => hl (List.mem_cons_of_mem _ hx))]

theorem stripTags_aRep (n : Nat) : stripTags (aRep n) = aRep n := by
  show String.mk (stripTagsAux (aRep n).data.length (aRep n).data) = aRep n
  rw [stripTagsAux_id _ _ (by
    intro hmem
    rw [show (aRep n).data = List.replicate n 'a' from rfl] at hmem
    rw [List.mem_replicate] at hmem
    exact absurd hmem.2 (by decide)), strMk_data]

theorem collapseNL_aRep (rep : String) (n : Nat) :
    collapseNL rep (aRep n) = aRep n := by
  show String.mk (collapseNLAux rep.data (aRep n).data) = aRep n
  rw [collapseNLAux_id _ _ (by
    intro hmem
    rw [show (aRep n).data = List.replicate n 'a' from rfl] at hmem
    rw [List.mem_replicate] at hmem
    exact absurd hmem.2 (by decide)), strMk_data]

theorem colorize_aRep (m : Nat) :
    colorize [(aRep (m + 1), WordKind.New)] (aRep (m + 1)) =
      (String.mk (highlightWord (List.replicate (m + 1) 'a')), true) := by
  rw [colorize_eq_list]
  have hdata : (aRep (m + 1)).data = 'a' :: List.replicate m 'a' := by
    show List.replicate (m + 1) 'a' = _
    rw [List.replicate_succ]
  rw [hdata]
  have htake : (List.replicate m 'a').takeWhile isColorWordChar = List.replicate m 'a' :=
    takeWhile_replicate_pos _ _ _ (by decide)
  have hdrop : (List.replicate m 'a').dropWhile isColorWordChar = [] :=
    dropWhile_replicate_pos _ _ _ (by decide)
  have hkey : String.mk (('a' :: (List.replicate m 'a').takeWhile isColorWordChar).map lowerChar) =
      aRep (m + 1) := by
    rw [htake]
    show String.mk (List.map lowerChar ('a' :: List.replicate m 'a')) = _
    rw [show List.map lowerChar ('a' :: List.replicate m 'a') =
        lowerChar 'a' :: List.map lowerChar (List.replicate m 'a') from rfl,
      List.map_replicate]
    rw [show lowerChar 'a' = 'a' from by decide]
    rw [← List.replicate_succ]
    rfl
  have hdg : dictGet [(aRep (m + 1), WordKind.New)]
      (String.mk (('a' :: (List.replicate m 'a').takeWhile isColorWordChar).map lowerChar)) =
      some WordKind.New := by
    rw [hkey]
    show (if aRep (m + 1) = aRep (m + 1) then some WordKind.New else dictGet [] (aRep (m + 1))) = _
    rw [if_pos rfl]
  rw [colorizeList_cons_new _ _ _ (by decide) hdg, hdrop]
  dsimp only
  have hnil : (colorizeList [(aRep (m + 1), WordKind.New)] []).1 = [] := rfl
  rw [hnil, List.append_nil, htake, ← List.replicate_succ]

/-- Claim C3 counterexample: a single flagged entry whose batched text
is 4001 bytes.  The overflow check flushes the still-empty chunk, the
capability translates the empty batch to an empty string, and the
`\r\n` appended after it injects a spurious empty first line: the
entry receives the empty line instead of the translation of its own
text (here the capability is the identity on lines, so the claim
demands the 4001-byte text back). -/
theorem c3_counterexample :
    (translateSubs (fun c => strInterc "\r\n" ((rustLines c).map (fun u => u)))
        [(aRep 4001, WordKind.New)] [sampleSub (aRep 4001)]).1 =
      some [{ index := 1, start_time := ⟨0, 0, 1, 0⟩, end_time := ⟨0, 0, 2, 0⟩,
              text := String.mk (highlightWord (List.replicate 4001 'a')) ++ "\r\n",
              need_translation := true }] ∧
    String.mk (highlightWord (List.replicate 4001 'a')) ++ "\r\n" ≠
      String.mk (highlightWord (List.replicate 4001 'a')) ++ "\r\n" ++
        replaceAll " *" "\r\n" (aRep 4001) := by
  have hanl : '\n' ∉ (aRep 4001).data := by
    intro hmem
    rw [show (aRep 4001).data = List.replicate 4001 'a' from rfl,
      List.mem_replicate] at hmem
    exact absurd hmem.2 (by decide)
  have habs : '\\' ∉ (aRep 4001).data := by
    intro hmem
    rw [show (aRep 4001).data = List.replicate 4001 'a' from rfl,
      List.mem_replicate] at hmem
    exact absurd hmem.2 (by decide)
  have hspace : ' ' ∉ (aRep 4001).data := by
    intro hmem
    rw [show (aRep 4001).data = List.replicate 4001 'a' from rfl,
      List.mem_replicate] at hmem
    exact absurd hmem.2 (by decide)
  have hrepl : replaceAll " *" "\r\n" (aRep 4001) = aRep 4001 := by
    show String.mk (replaceAllAux " *".data "\r\n".data (aRep 4001).data.length
      (aRep 4001).data) = aRep 4001
    rw [replaceAllAux_id " *".data "\r\n".data ' ' rfl _ _ hspace, strMk_data]
  constructor
  · have hps : processSub [(aRep 4001, WordKind.New)] (sampleSub (aRep 4001)) =
        ({ index := 1, start_time := ⟨0, 0, 1, 0⟩, end_time := ⟨0, 0, 2, 0⟩,
           text := String.mk (highlightWord (List.replicate 4001 'a')),
           need_translation := true }, some (aRep 4001)) := by
      unfold processSub
      have ht2 : collapseNL " " (stripTags (sampleSub (aRep 4001)).text) = aRep 4001 := by
        show collapseNL " " (stripTags (aRep 4001)) = aRep 4001
        rw [stripTags_aRep, collapseNL_aRep]
      rw [ht2]
      rw [show (4001 : Nat) = 4000 + 1 from rfl] at ht2 ⊢
      rw [colorize_aRep 4000]
      rw [if_pos rfl]
      have ht3 : collapseNL "*" (aRep (4000 + 1)) = aRep (4000 + 1) := collapseNL_aRep _ _
      rw [ht3]
      rfl
    have hchunks : runBatcher [aRep 4001] = [[], [aRep 4001]] := by
      have h1 : byteLen (aRep 4001) = 4001 := byteLen_aRep 4001
      simp [runBatcher, finishBatch, batchStep, h1, MAX_CHUNK_SIZE]
    have htr1 : (fun c => strInterc "\r\n" ((rustLines c).map (fun u => u)))
        (chunkString ([] : List String)) = "" := rfl
    have htr2 : (fun c => strInterc "\r\n" ((rustLines c).map (fun u => u)))
        (chunkString [aRep 4001]) = aRep 4001 := by
      show strInterc "\r\n" ((rustLines (chunkString [aRep 4001])).map (fun u => u)) = _
      have hcs : chunkString [aRep 4001] = strJoin ([aRep 4001].map (fun t => t ++ "\r\n")) := rfl
      rw [hcs, rustLines_join_crlf [aRep 4001]
        (by
          intro u hu c hc hce
          rw [List.mem_singleton] at hu
          rw [hu] at hc
          exact hanl (hce ▸ hc))]
      rfl
    have hlines : translatedLines
        (fun c => strInterc "\r\n" ((rustLines c).map (fun u => u)))
        [[], [aRep 4001]] = ["", aRep 4001] := by
      unfold translatedLines translatedChunks
      rw [List.map_cons, List.map_cons, List.map_nil, htr1, htr2]
      have hform : strJoin ["" ++ "\r\n", aRep 4001 ++ "\r\n"] =
          strJoin ((["", aRep 4001].map (fun t => t ++ "\r\n"))) := rfl
      rw [hform]
      have hBS : '\\' ∉ (strJoin ((["", aRep 4001].map (fun t => t ++ "\r\n")))).data := by
        rw [strJoin_data]
        intro hmem
        rw [List.mem_flatten] at hmem
        obtain ⟨piece, hpiece, hcm⟩ := hmem
        rw [List.map_map, List.mem_map] at hpiece
        obtain ⟨u, hu, hue⟩ := hpiece
        have hcm2 : '\\' ∈ (u ++ "\r\n").data := by
          rw [← hue] at hcm
          exact hcm
        rw [String.data_append] at hcm2
        rcases List.mem_append.mp hcm2 with hm | hm
        · rcases List.mem_cons.mp hu with h1 | h1
          · rw [h1] at hm
            cases hm
          · rw [List.mem_singleton] at h1
            rw [h1] at hm
            exact habs hm
        · revert hm
          decide
      rw [replaceAll_esc_id _ hBS]
      rw [rustLines_join_crlf ["", aRep 4001]
        (by
          intro u hu c hc hce
          rcases List.mem_cons.mp hu with h1 | h1
          · rw [h1] at hc
            cases hc
          · rw [List.mem_singleton] at h1
            rw [h1] at hc
            exact hanl (hce ▸ hc))]
    rw [translateSubs_fst]
    rw [List.map_cons, List.map_nil, List.filterMap_cons, hps]
    dsimp only
    rw [List.filterMap_nil]
    simp only [List.map_cons, List.map_nil]
    rw [hchunks, hlines]
    rw [attachTranslations_cons_flagged _ _ _ _ rfl]
    rw [attachTranslations_nil]
    have hr0 : replaceAll " *" "\r\n" "" = "" := rfl
    rw [hr0, strAppend_empty]
    rfl
  · intro heq
    have hlen := congrArg byteLen heq
    rw [byteLen_append, byteLen_append, byteLen_append, hrepl, byteLen_aRep] at hlen
    omega

theorem sepAt_none_head (c : Char) (h1 : c ≠ '\r') (h2 : c ≠ '\n')
    (l : List Char) : sepAt (c :: l) = none := by
  rw [sepAt.eq_def]
  split
  · rename_i heq
    injection heq with e1 _
    exact absurd e1 h1
  · rename_i heq
    injection heq with e1 _
    exact absurd e1 h1
  · rename_i heq
    injection heq with e1 _
    exact absurd e1 h2
  · rename_i heq
    injection heq with e1 _
    exact absurd e1 h2
  · rfl

theorem sepAt_none_nl (c : Char) (h1 : c ≠ '\r') (h2 : c ≠ '\n')
    (l : List Char) : sepAt ('\n' :: c :: l) = none := by
  rw [sepAt.eq_def]
  split
  · rename_i heq
    injection heq with e1 _
    exact absurd e1 (by decide)
  · rename_i heq
    injection heq with e1 _
    exact absurd e1 (by decide)
  · rename_i heq
    injection heq with _ e2
    injection e2 with e3 _
    exact absurd e3 h1
  · rename_i heq
    injection heq with _ e2
    injection e2 with e3 _
    exact absurd e3 h2
  · rfl

theorem sepAt_none_crnl (c : Char) (h1 : c ≠ '\r') (h2 : c ≠ '\n')
    (l : List Char) : sepAt ('\r' :: '\n' :: c :: l) = none := by
  rw [sepAt.eq_def]
  split
  · rename_i heq
    injection heq with _ e2
    injection e2 with _ e3
    injection e3 with e4 _
    exact absurd e4 h1
  · rename_i heq
    injection heq with _ e2
    injection e2 with _ e3
    injection e3 with e4 _
    exact absurd e4 h2
  · rename_i heq
    injection heq with e1 _
    exact absurd e1 (by decide)
  · rename_i heq
    injection heq with e1 _
    exact absurd e1 (by decide)
  · rfl

theorem sepAt_none_of_sepSafe (s : List Char) (h : sepSafe s)
    (v : List Char) : sepAt (s ++ v) = none := by
  rcases h with ⟨c, t, he, h1, h2⟩ | ⟨c, t, he, h1, h2⟩ | ⟨c, t, he, h1, h2⟩
  · subst he
    exact sepAt_none_head c h1 h2 (t ++ v)
  · subst he
    exact sepAt_none_nl c h1 h2 (t ++ v)
  · subst he
    exact sepAt_none_crnl c h1 h2 (t ++ v)

theorem suffix_append_cases {s a b : List Char} (h : s <:+ a ++ b) :
    s <:+ b ∨ ∃ a1, a1 <:+ a ∧ a1 ≠ [] ∧ s = a1 ++ b := by
  induction a with
  | nil => exact Or.inl h
  | cons x a ih =>
    obtain ⟨p, hp⟩ := h
    cases p with
    | nil =>
      right
      refine ⟨x :: a, List.suffix_refl _, by simp, ?_⟩
      simpa using hp
    | cons y p' =>
      have hp' : p' ++ s = a ++ b := by
        have : y :: (p' ++ s) = x :: (a ++ b) := by simpa using hp
        injection this
      rcases ih ⟨p', hp'⟩ with hl | ⟨a1, ha1, hne, hse⟩
      · exact Or.inl hl
      · exact Or.inr ⟨a1, ha1.trans ⟨[x], rfl⟩, hne, hse⟩

theorem suffix_single {s : List Char} {a : Char} (h : s <:+ [a]) :
    s = [] ∨ s = [a] := by
  obtain ⟨p, hp⟩ := h
  cases p with
  | nil => right; simpa using hp
  | cons x p' =>
    left
    have : x :: (p' ++ s) = [a] := by simpa using hp
    injection this with _ e2
    exact (List.append_eq_nil.mp e2).2

theorem suffix_pair {s : List Char} {a b : Char} (h : s <:+ [a, b]) :
    s = [] ∨ s = [b] ∨ s = [a, b] := by
  obtain ⟨p, hp⟩ := h
  cases p with
  | nil => right; right; simpa using hp
  | cons x p' =>
    cases p' with
    | nil =>
      right; left
      have hxs : x :: s = [a, b] := by simpa using hp
      exact (List.cons_eq_cons.mp hxs).2
    | cons y p'' =>
      left
      have : x :: y :: (p'' ++ s) = [a, b] := by simpa using hp
      injection this with _ e2
      injection e2 with _ e3
      exact (List.append_eq_nil.mp e3).2

/-- The body of a good multi-line text: nonempty, clean head, and every
nonempty suffix is `sepSafe`. -/
theorem interc_sepSafe (nl : String) (hnl : goodNL nl) :
    ∀ (lines : List String), lines ≠ [] → (∀ L ∈ lines, lineOK L) →
      (∃ c t, (strInterc nl lines).data = c :: t ∧ c ≠ '\r' ∧ c ≠ '\n') ∧
      (∀ s, s <:+ (strInterc nl lines).data → s ≠ [] → sepSafe s) := by
  intro lines
  induction lines with
  | nil => intro h; exact absurd rfl h
  | cons L rest ih =>
    intro _ hok
    have hL : lineOK L := hok L (List.mem_cons_self _ _)
    obtain ⟨hLne, hLclean⟩ := hL
    cases rest with
    | nil =>
      have he : strInterc nl [L] = L := rfl
      rw [he]
      obtain ⟨c, t, hd⟩ : ∃ c t, L.data = c :: t := by
        cases hdd : L.data with
        | nil => exact absurd hdd hLne
        | cons c t => exact ⟨c, t, rfl⟩
      have hc := hLclean c (by rw [hd]; exact List.mem_cons_self _ _)
      constructor
      · exact ⟨c, t, hd, hc.1, hc.2⟩
      · intro s hs hsne
        cases s with
        | nil => exact absurd rfl hsne
        | cons c1 t1 =>
          have hmem : c1 ∈ L.data := hs.subset (List.mem_cons_self _ _)
          have hcc := hLclean c1 hmem
          exact Or.inl ⟨c1, t1, rfl, hcc.1, hcc.2⟩
    | cons L2 rest2 =>
      have hok2 : ∀ x ∈ L2 :: rest2, lineOK x :=
        fun x hx => hok x (List.mem_cons_of_mem _ hx)
      obtain ⟨⟨c0, t0, hc0, hc0r, hc0n⟩, hsuf⟩ := ih (by simp) hok2
      have he : (strInterc nl (L :: L2 :: rest2)).data =
          L.data ++ (nl.data ++ (strInterc nl (L2 :: rest2)).data) := by
        show (L ++ nl ++ strInterc nl (L2 :: rest2)).data = _
        rw [String.data_append, String.data_append, List.append_assoc]
      rw [he]
      obtain ⟨c, t, hd⟩ : ∃ c t, L.data = c :: t := by
        cases hdd : L.data with
        | nil => exact absurd hdd hLne
        | cons c t => exact ⟨c, t, rfl⟩
      have hc := hLclean c (by rw [hd]; exact List.mem_cons_self _ _)
      constructor
      · exact ⟨c, t ++ (nl.data ++ (strInterc nl (L2 :: rest2)).data),
          by rw [hd, List.cons_append], hc.1, hc.2⟩
      · intro s hs hsne
        rcases suffix_append_cases hs with hs1 | ⟨a1, ha1, ha1ne, hse⟩
        · -- suffix of nl.data ++ tail
          rcases suffix_append_cases hs1 with hs2 | ⟨n1, hn1, hn1ne, hse2⟩
          · exact hsuf s hs2 hsne
          · rcases hnl with hlf | hcrlf
            · have hnld : nl.data = ['\n'] := by rw [hlf]
              rw [hnld] at hn1
              rcases suffix_single hn1 with h0 | h1
              · exact absurd h0 hn1ne
              · rw [h1, hc0] at hse2
                exact Or.inr (Or.inl ⟨c0, t0, hse2, hc0r, hc0n⟩)
            · have hnld : nl.data = ['\r', '\n'] := by rw [hcrlf]
              rw [hnld] at hn1
              rcases suffix_pair hn1 with h0 | h1 | h2
              · exact absurd h0 hn1ne
              · rw [h1, hc0] at hse2
                exact Or.inr (Or.inl ⟨c0, t0, hse2, hc0r, hc0n⟩)
              · rw [h2, hc0] at hse2
                exact Or.inr (Or.inr ⟨c0, t0, hse2, hc0r, hc0n⟩)
        · -- nonempty suffix of L.data, then the rest of the text
          cases a1 with
          | nil => exact absurd rfl ha1ne
          | cons c1 t1 =>
            have hmem : c1 ∈ L.data := ha1.subset (List.mem_cons_self _ _)
            have hcc := hLclean c1 hmem
            rw [List.cons_append] at hse
            exact Or.inl ⟨c1, _, hse, hcc.1, hcc.2⟩

theorem findSep_append (u : List Char) :
    ∀ (v r : List Char), (∀ s, s <:+ u → s ≠ [] → sepSafe s) →
      sepAt v = some r → findSep (u ++ v) = some (u, r) := by
  induction u with
  | nil =>
    intro v r _ hv
    cases v with
    | nil =>
      have hv' : (none : Option (List Char)) = some r := hv
      cases hv'
    | cons c vrest =>
      show findSep (c :: vrest) = some ([], r)
      rw [findSep, hv]
  | cons c u' ih =>
    intro v r hu hv
    have hsafe : sepSafe (c :: u') := hu (c :: u') (List.suffix_refl _) (by simp)
    have hnone : sepAt ((c :: u') ++ v) = none := sepAt_none_of_sepSafe _ hsafe v
    rw [List.cons_append] at hnone
    show findSep (c :: (u' ++ v)) = some (c :: u', r)
    rw [findSep, hnone,
      ih v r (fun s hs hsne => hu s (hs.trans ⟨[c], rfl⟩) hsne) hv]
    rfl

theorem parseNL_lf (r : List Char) : parseNL ('\n' :: r) = some r := rfl

theorem parseNL_crlf (r : List Char) : parseNL ('\r' :: '\n' :: r) = some r := rfl

theorem parseArrow_spaces (r : List Char) :
    parseArrow (' ' :: '-' :: '-' :: '>' :: ' ' :: r) = some r := rfl

theorem digitChar_toNat (d : Nat) (h : d < 10) : (digitChar d).toNat = 48 + d := by
  interval_cases d <;> decide

theorem digitChar_isDigit (d : Nat) (h : d < 10) :
    isDigitChar (digitChar d) = true := by
  interval_cases d <;> decide

theorem digitsVal_pad2 (n : Nat) (h : n < 100) :
    digitsVal [digitChar (n / 10), digitChar (n % 10)] = n := by
  have h1 : n / 10 < 10 := by omega
  have h2 : n % 10 < 10 := by omega
  simp only [digitsVal, List.foldl, digitChar_toNat _ h1, digitChar_toNat _ h2]
  omega

theorem digitsVal_pad3 (n : Nat) (h : n < 1000) :
    digitsVal [digitChar (n / 100), digitChar (n / 10 % 10), digitChar (n % 10)] = n := by
  have h1 : n / 100 < 10 := by omega
  have h2 : n / 10 % 10 < 10 := by omega
  have h3 : n % 10 < 10 := by omega
  simp only [digitsVal, List.foldl, digitChar_toNat _ h1, digitChar_toNat _ h2,
    digitChar_toNat _ h3]
  omega

theorem parseTimestamp_fmt (t : Timestamp) (h : tsOK t) (r : List Char) :
    parseTimestamp ((fmtTimestamp t).data ++ r) = some (t, r) := by
  obtain ⟨h1, h2, h3, h4⟩ := h
  have hd : (fmtTimestamp t).data ++ r =
      digitChar (t.hh / 10) :: digitChar (t.hh % 10) :: ':' ::
      digitChar (t.mm / 10) :: digitChar (t.mm % 10) :: ':' ::
      digitChar (t.ss / 10) :: digitChar (t.ss % 10) :: ',' ::
      digitChar (t.ms / 100) :: digitChar (t.ms / 10 % 10) :: digitChar (t.ms % 10) :: r := rfl
  rw [hd]
  have step : parseTimestamp (digitChar (t.hh / 10) :: digitChar (t.hh % 10) :: ':' ::
      digitChar (t.mm / 10) :: digitChar (t.mm % 10) :: ':' ::
      digitChar (t.ss / 10) :: digitChar (t.ss % 10) :: ',' ::
      digitChar (t.ms / 100) :: digitChar (t.ms / 10 % 10) :: digitChar (t.ms % 10) :: r) =
      if isDigitChar (digitChar (t.hh / 10)) && isDigitChar (digitChar (t.hh % 10)) &&
          isDigitChar (digitChar (t.mm / 10)) && isDigitChar (digitChar (t.mm % 10)) &&
          isDigitChar (digitChar (t.ss / 10)) && isDigitChar (digitChar (t.ss % 10)) &&
          isDigitChar (digitChar (t.ms / 100)) && isDigitChar (digitChar (t.ms / 10 % 10)) &&
          isDigitChar (digitChar (t.ms % 10)) then
        some ({ hh := digitsVal [digitChar (t.hh / 10), digitChar (t.hh % 10)],
                mm := digitsVal [digitChar (t.mm / 10), digitChar (t.mm % 10)],
                ss := digitsVal [digitChar (t.ss / 10), digitChar (t.ss % 10)],
                ms := digitsVal [digitChar (t.ms / 100), digitChar (t.ms / 10 % 10),
                  digitChar (t.ms % 10)] }, r)
      else none := rfl
  rw [step, if_pos]
  · rw [digitsVal_pad2 t.hh h1, digitsVal_pad2 t.mm h2, digitsVal_pad2 t.ss h3,
      digitsVal_pad3 t.ms h4]
  · rw [digitChar_isDigit _ (by omega), digitChar_isDigit _ (by omega),
      digitChar_isDigit _ (by omega), digitChar_isDigit _ (by omega),
      digitChar_isDigit _ (by omega), digitChar_isDigit _ (by omega),
      digitChar_isDigit _ (by omega), digitChar_isDigit _ (by omega),
      digitChar_isDigit _ (by omega)]
    rfl

theorem takeWhile_append_stop (p : Char → Bool) :
    ∀ (a : List Char), (∀ c ∈ a, p c = true) → ∀ (c : Char), p c = false →
      ∀ (b : List Char),
        (a ++ c :: b).takeWhile p = a ∧ (a ++ c :: b).dropWhile p = c :: b := by
  intro a
  induction a with
  | nil =>
    intro _ c hc b
    constructor
    · simp [List.takeWhile_cons, hc]
    · simp [List.dropWhile_cons, hc]
  | cons x a' ih =>
    intro ha c hc b
    have hx : p x = true := ha x (List.mem_cons_self _ _)
    obtain ⟨h1, h2⟩ := ih (fun y hy => ha y (List.mem_cons_of_mem _ hy)) c hc b
    constructor
    · rw [List.cons_append, List.takeWhile_cons, if_pos hx, h1]
    · rw [List.cons_append, List.dropWhile_cons, if_pos hx, h2]

/-- The block regex matches at the head of a rendered block and
consumes exactly the block, producing `blockSub`. -/
theorem matchAt_renderBlock (nl : String) (b : Block) (rest : List Char)
    (hnl : goodNL nl) (hb : goodBlock b) :
    matchAt ((renderBlock nl b).data ++ rest) = some (blockSub nl b, rest) := by
  obtain ⟨hi1, hi2, ht1, ht2, hl1, hl2⟩ := hb
  obtain ⟨⟨c0, t0, hT, _, _⟩, hsuf⟩ := interc_sepSafe nl hnl b.lines hl1 hl2
  have ht0suf : t0 <:+ (strInterc nl b.lines).data := ⟨[c0], hT.symm⟩
  have hsubs : ∀ s, s <:+ t0 → s ≠ [] → sepSafe s :=
    fun s hs hsne => hsuf s (hs.trans ht0suf) hsne
  have h0 : ∀ l : List Char, (String.mk l).data = l := fun _ => rfl
  rcases hnl with hlf | hcrlf
  · -- nl = "\n"
    subst hlf
    have hdoc : (renderBlock "\n" b).data ++ rest =
        b.indexDigits ++ ('\n' :: ((fmtTimestamp b.t1).data ++
          (' ' :: '-' :: '-' :: '>' :: ' ' :: ((fmtTimestamp b.t2).data ++
            ('\n' :: ((strInterc "\n" b.lines).data ++
              ('\n' :: '\n' :: rest))))))) := by
      simp [renderBlock, String.data_append, List.append_assoc, h0]
    obtain ⟨htake, hdrop⟩ :=
      takeWhile_append_stop isDigitChar b.indexDigits hi2 '\n' (by decide)
        ((fmtTimestamp b.t1).data ++
          (' ' :: '-' :: '-' :: '>' :: ' ' :: ((fmtTimestamp b.t2).data ++
            ('\n' :: ((strInterc "\n" b.lines).data ++ ('\n' :: '\n' :: rest))))))
    have hsep : sepAt ('\n' :: '\n' :: rest) = some rest := rfl
    have hfind : findSep (t0 ++ '\n' :: '\n' :: rest) = some (t0, rest) :=
      findSep_append t0 _ rest hsubs hsep
    rw [hdoc]
    simp only [matchAt, htake, hdrop, if_neg hi1, parseNL_lf,
      parseTimestamp_fmt b.t1 ht1, parseArrow_spaces, parseTimestamp_fmt b.t2 ht2]
    rw [hT]
    simp only [List.cons_append, hfind]
    simp only [blockSub]
    rw [← hT, strMk_data]
  · -- nl = "\r\n"
    subst hcrlf
    have hdoc : (renderBlock "\r\n" b).data ++ rest =
        b.indexDigits ++ ('\r' :: '\n' :: ((fmtTimestamp b.t1).data ++
          (' ' :: '-' :: '-' :: '>' :: ' ' :: ((fmtTimestamp b.t2).data ++
            ('\r' :: '\n' :: ((strInterc "\r\n" b.lines).data ++
              ('\r' :: '\n' :: '\r' :: '\n' :: rest))))))) := by
      simp [renderBlock, String.data_append, List.append_assoc, h0]
    obtain ⟨htake, hdrop⟩ :=
      takeWhile_append_stop isDigitChar b.indexDigits hi2 '\r' (by decide)
        ('\n' :: ((fmtTimestamp b.t1).data ++
          (' ' :: '-' :: '-' :: '>' :: ' ' :: ((fmtTimestamp b.t2).data ++
            ('\r' :: '\n' :: ((strInterc "\r\n" b.lines).data ++
              ('\r' :: '\n' :: '\r' :: '\n' :: rest)))))))
    have hsep : sepAt ('\r' :: '\n' :: '\r' :: '\n' :: rest) = some rest := rfl
    have hfind : findSep (t0 ++ '\r' :: '\n' :: '\r' :: '\n' :: rest) =
        some (t0, rest) := findSep_append t0 _ rest hsubs hsep
    rw [hdoc]
    simp only [matchAt, htake, hdrop, if_neg hi1, parseNL_crlf,
      parseTimestamp_fmt b.t1 ht1, parseArrow_spaces, parseTimestamp_fmt b.t2 ht2]
    rw [hT]
    simp only [List.cons_append, hfind]
    simp only [blockSub]
    rw [← hT, strMk_data]

theorem parseNL_length (l r : List Char) (h : parseNL l = some r) :
    r.length < l.length := by
  rw [parseNL.eq_def] at h
  split at h
  · injection h with he
    subst he
    simp only [List.length_cons]
    omega
  · injection h with he
    subst he
    simp only [List.length_cons]
    omega
  · cases h

theorem parseTimestamp_length (l : List Char) (t : Timestamp) (r : List Char)
    (h : parseTimestamp l = some (t, r)) : r.length < l.length := by
  rw [parseTimestamp.eq_def] at h
  split at h
  · split at h
    · injection h with he
      have h2 : r = _ := (congrArg Prod.snd he).symm
      rw [h2]
      simp only [List.length_cons]
      omega
    · cases h
  · cases h

theorem parseArrow_length (l r : List Char) (h : parseArrow l = some r) :
    r.length < l.length := by
  rw [parseArrow.eq_def] at h
  split at h
  · split at h
    · injection h with he
      subst he
      simp only [List.length_cons]
      omega
    · cases h
  · cases h

theorem sepAt_length (l r : List Char) (h : sepAt l = some r) :
    r.length < l.length := by
  rw [sepAt.eq_def] at h
  split at h
  · injection h with he
    subst he
    simp only [List.length_cons]
    omega
  · injection h with he
    subst he
    simp only [List.length_cons]
    omega
  · injection h with he
    subst he
    simp only [List.length_cons]
    omega
  · injection h with he
    subst he
    simp only [List.length_cons]
    omega
  · cases h

theorem findSep_length : ∀ (l : List Char) (p : List Char × List Char),
    findSep l = some p → p.2.length < l.length := by
  intro l
  induction l with
  | nil => intro p h; cases h
  | cons c rest ih =>
    intro p h
    rw [findSep] at h
    cases hsep : sepAt (c :: rest) with
    | some r =>
      rw [hsep] at h
      injection h with he
      subst he
      exact sepAt_length _ _ hsep
    | none =>
      rw [hsep] at h
      obtain ⟨q, hq, hpe⟩ := Option.map_eq_some'.mp h
      subst hpe
      have := ih q hq
      simp only [List.length_cons]
      omega

theorem length_dropWhile_le (p : Char → Bool) (l : List Char) :
    (l.dropWhile p).length ≤ l.length := by
  induction l with
  | nil => exact Nat.le_refl _
  | cons c t ih =>
    rw [List.dropWhile_cons]
    by_cases hc : p c = true
    · rw [if_pos hc]
      simp only [List.length_cons]
      omega
    · rw [if_neg hc]

theorem matchAt_length (l : List Char) (sub : Sub) (rest : List Char)
    (h : matchAt l = some (sub, rest)) : rest.length < l.length := by
  simp only [matchAt] at h
  have hdw := length_dropWhile_le isDigitChar l
  split at h
  · cases h
  · split at h
    · cases h
    · rename_i r1 hr1
      have l1 := parseNL_length _ _ hr1
      split at h
      · cases h
      · rename_i t1 r2 hr2
        have l2 := parseTimestamp_length _ _ _ hr2
        split at h
        · cases h
        · rename_i r3 hr3
          have l3 := parseArrow_length _ _ hr3
          split at h
          · cases h
          · rename_i t2 r4 hr4
            have l4 := parseTimestamp_length _ _ _ hr4
            split at h
            · cases h
            · rename_i r5 hr5
              have l5 := parseNL_length _ _ hr5
              split at h
              · cases h
              · rename_i c r6
                split at h
                · cases h
                · rename_i textTail rest1 hfind
                  have l6 := findSep_length _ _ hfind
                  injection h with he
                  have h2 : rest1 = rest := congrArg Prod.snd he
                  subst h2
                  simp only [List.length_cons] at l5 l6 ⊢
                  omega

theorem scanAux_nil (fuel : Nat) : scanAux fuel [] = [] := by
  cases fuel with
  | zero => rfl
  | succ m => rfl

theorem scanAux_step (fuel : Nat) (l : List Char) (sub : Sub) (rest : List Char)
    (h : matchAt l = some (sub, rest)) (hf : 1 ≤ fuel) :
    scanAux fuel l = sub :: scanAux (fuel - 1) rest := by
  cases fuel with
  | zero => omega
  | succ m => simp [scanAux, h]

theorem scanAux_skip (fuel : Nat) (c : Char) (t : List Char)
    (h : matchAt (c :: t) = none) (hf : 1 ≤ fuel) :
    scanAux fuel (c :: t) = scanAux (fuel - 1) t := by
  cases fuel with
  | zero => omega
  | succ m => simp [scanAux, h]

/-- The scan's fuel is irrelevant once it covers the input length:
every step consumes at least one character. -/
theorem scanAux_fuel : ∀ (n fuel fuel3 : Nat) (l : List Char), l.length ≤ n →
    l.length ≤ fuel → l.length ≤ fuel3 → scanAux fuel l = scanAux fuel3 l := by
  intro n
  induction n with
  | zero =>
    intro fuel fuel3 l hn _ _
    have he : l = [] := List.length_eq_zero.mp (Nat.le_zero.mp hn)
    subst he
    rw [scanAux_nil, scanAux_nil]
  | succ m ih =>
    intro fuel fuel3 l hn hf1 hf3
    cases l with
    | nil => rw [scanAux_nil, scanAux_nil]
    | cons c t =>
      simp only [List.length_cons] at hn hf1 hf3
      cases hm : matchAt (c :: t) with
      | some p =>
        obtain ⟨sub, rest⟩ := p
        have hlt := matchAt_length _ _ _ hm
        simp only [List.length_cons] at hlt
        rw [scanAux_step fuel _ _ _ hm (by omega),
          scanAux_step fuel3 _ _ _ hm (by omega)]
        rw [ih (fuel - 1) (fuel3 - 1) rest (by omega) (by omega) (by omega)]
      | none =>
        rw [scanAux_skip fuel _ _ hm (by omega),
          scanAux_skip fuel3 _ _ hm (by omega)]
        exact ih (fuel - 1) (fuel3 - 1) t (by omega) (by omega) (by omega)

theorem renderDoc_cons (nl : String) (b : Block) (bs : List Block) :
    (renderDoc nl (b :: bs)).data =
      (renderBlock nl b).data ++ (renderDoc nl bs).data := by
  show (strJoin (renderBlock nl b :: bs.map (renderBlock nl))).data = _
  rw [strJoin, String.data_append]
  rfl

theorem renderBlock_data_length (nl : String) (b : Block)
    (hne : b.indexDigits ≠ []) : 1 ≤ (renderBlock nl b).data.length := by
  have h1 : 0 < b.indexDigits.length := List.length_pos.mpr hne
  simp [renderBlock, String.data_append, List.length_append]
  omega

/-- Parsing a rendered document recovers exactly one entry per block,
in order. -/
theorem parseSubs_renderDoc (nl : String) (hnl : goodNL nl) :
    ∀ (bs : List Block), (∀ b ∈ bs, goodBlock b) →
      parseSubs (renderDoc nl bs) = bs.map (blockSub nl) := by
  intro bs
  induction bs with
  | nil => intro _; rfl
  | cons b rest ih =>
    intro hgood
    have hb : goodBlock b := hgood b (List.mem_cons_self _ _)
    have hrest : ∀ x ∈ rest, goodBlock x :=
      fun x hx => hgood x (List.mem_cons_of_mem _ hx)
    have hdata := renderDoc_cons nl b rest
    have hm := matchAt_renderBlock nl b (renderDoc nl rest).data hnl hb
    have hlen1 : 1 ≤ (renderBlock nl b).data.length :=
      renderBlock_data_length nl b hb.1
    unfold parseSubs
    rw [hdata]
    rw [scanAux_step _ _ _ _ hm (by simp only [List.length_append]; omega)]
    rw [scanAux_fuel (renderDoc nl rest).data.length _ _ (renderDoc nl rest).data
      (Nat.le_refl _) (by simp only [List.length_append]; omega) (Nat.le_refl _)]
    rw [List.map_cons]
    congr 1
    exact ih hrest

theorem strInterc_single (sep : String) (L : String) : strInterc sep [L] = L := rfl

/-- Claim C8 (amended): for every well-formed document, the CRLF and LF
renderings parse to the same number of entries with identical index,
start time, end time and flag, in the same order; but the text fields
keep the document's own line terminator between the lines (the text
group of the block regex captures the `\r` characters of a CRLF
document), so the two parses are identical exactly when no block has an
internal line break — see `c8_counterexample` for a two-line block on
which they differ. -/
theorem c8_line_ending_parse (bs : List Block) (hbs : ∀ b ∈ bs, goodBlock b) :
    parseSubs (renderDoc "\r\n" bs) = bs.map (blockSub "\r\n") ∧
    parseSubs (renderDoc "\n" bs) = bs.map (blockSub "\n") ∧
    (parseSubs (renderDoc "\r\n" bs)).map
        (fun s => (s.index, s.start_time, s.end_time, s.need_translation)) =
      (parseSubs (renderDoc "\n" bs)).map
        (fun s => (s.index, s.start_time, s.end_time, s.need_translation)) ∧
    (parseSubs (renderDoc "\r\n" bs)).map Sub.text =
      bs.map (fun b => strInterc "\r\n" b.lines) ∧
    (parseSubs (renderDoc "\n" bs)).map Sub.text =
      bs.map (fun b => strInterc "\n" b.lines) ∧
    ((∀ b ∈ bs, b.lines.length = 1) →
      parseSubs (renderDoc "\r\n" bs) = parseSubs (renderDoc "\n" bs)) := by
  have h1 := parseSubs_renderDoc "\r\n" (Or.inr rfl) bs hbs
  have h2 := parseSubs_renderDoc "\n" (Or.inl rfl) bs hbs
  refine ⟨h1, h2, ?_, ?_, ?_, ?_⟩
  · rw [h1, h2, List.map_map, List.map_map]
    rfl
  · rw [h1, List.map_map]
    rfl
  · rw [h2, List.map_map]
    rfl
  · intro hone
    rw [h1, h2]
    apply List.map_congr_left
    intro b hb
    have hlen := hone b hb
    obtain ⟨L, hL⟩ : ∃ L, b.lines = [L] := by
      cases hbl : b.lines with
      | nil => rw [hbl] at hlen; cases hlen
      | cons x t =>
        cases t with
        | nil => exact ⟨x, rfl⟩
        | cons y t2 =>
          rw [hbl] at hlen
          simp only [List.length_cons] at hlen
          omega
    simp only [blockSub, hL, strInterc_single]

/-- Claim C8 witness: a one-block, one-line document parsed from both
renderings. -/
theorem c8_line_ending_parse_witness :
    parseSubs (renderDoc "\r\n" [sampleBlock]) =
      [sampleBlock].map (blockSub "\r\n") ∧
    parseSubs (renderDoc "\n" [sampleBlock]) =
      [sampleBlock].map (blockSub "\n") ∧
    (parseSubs (renderDoc "\r\n" [sampleBlock])).map
        (fun s => (s.index, s.start_time, s.end_time, s.need_translation)) =
      (parseSubs (renderDoc "\n" [sampleBlock])).map
        (fun s => (s.index, s.start_time, s.end_time, s.need_translation)) ∧
    (parseSubs (renderDoc "\r\n" [sampleBlock])).map Sub.text =
      [sampleBlock].map (fun b => strInterc "\r\n" b.lines) ∧
    (parseSubs (renderDoc "\n" [sampleBlock])).map Sub.text =
      [sampleBlock].map (fun b => strInterc "\n" b.lines) ∧
    ((∀ b ∈ [sampleBlock], b.lines.length = 1) →
      parseSubs (renderDoc "\r\n" [sampleBlock]) =
        parseSubs (renderDoc "\n" [sampleBlock])) := by
  refine c8_line_ending_parse _ ?_
  intro b hb
  simp only [List.mem_singleton] at hb
  rw [hb]
  refine ⟨by decide, by decide, ⟨by decide, by decide, by decide, by decide⟩,
    ⟨by decide, by decide, by decide, by decide⟩, by decide, ?_⟩
  intro L hL
  simp only [sampleBlock, List.mem_singleton] at hL
  rw [hL]
  exact ⟨by decide, by decide⟩

/-- Claim C8 counterexample: the same two-line block rendered with CRLF
and with LF parses to different entries — the captured text keeps the
document's `\r`. -/
theorem c8_counterexample :
    parseSubs "1\r\n00:00:01,000 --> 00:00:02,000\r\na\r\nb\r\n\r\n" =
      [{ index := 1, start_time := ⟨0, 0, 1, 0⟩, end_time := ⟨0, 0, 2, 0⟩,
         text := "a\r\nb", need_translation := false }] ∧
    parseSubs "1\n00:00:01,000 --> 00:00:02,000\na\nb\n\n" =
      [{ index := 1, start_time := ⟨0, 0, 1, 0⟩, end_time := ⟨0, 0, 2, 0⟩,
         text := "a\nb", need_translation := false }] ∧
    parseSubs "1\r\n00:00:01,000 --> 00:00:02,000\r\na\r\nb\r\n\r\n" ≠
      parseSubs "1\n00:00:01,000 --> 00:00:02,000\na\nb\n\n" := by
  refine ⟨by decide, by decide, by decide⟩

theorem stripTags_id (s : String) (h : '<' ∉ s.data) : stripTags s = s := by
  unfold stripTags
  rw [stripTagsAux_id s.data.length s.data h, strMk_data]

theorem collapseNL_id (rep : String) (s : String) (h : '\n' ∉ s.data) :
    collapseNL rep s = s := by
  unfold collapseNL
  rw [collapseNLAux_id rep.data s.data h, strMk_data]

theorem expectedSub_index (dict : List (String × WordKind)) (f : String → String)
    (s : Sub) : (expectedSub dict f s).index = s.index := by
  unfold expectedSub
  split <;> rfl

theorem expectedSub_start (dict : List (String × WordKind)) (f : String → String)
    (s : Sub) : (expectedSub dict f s).start_time = s.start_time := by
  unfold expectedSub
  split <;> rfl

theorem expectedSub_end (dict : List (String × WordKind)) (f : String → String)
    (s : Sub) : (expectedSub dict f s).end_time = s.end_time := by
  unfold expectedSub
  split <;> rfl

/-- Claim C5 (amended): with the capability modelled as a per-line
translation `f` and the first flagged batch within the size ceiling,
the processed entry list keeps the source's length, order, indices and
timestamps, and the serialized output is one block per source entry in
source order.  But an entry NOT flagged for translation does not in
general keep its text: markup tags are stripped and internal line
breaks are collapsed to spaces even when nothing is highlighted (see
`c5_counterexample`); the text is unchanged only when it carries no
`<` and no line break.  A flagged entry's text gains the highlight
markup and the appended translated line. -/
theorem c5_roundtrip (tr f : String → String)
    (dict : List (String × WordKind)) (subs : List Sub)
    (hinit : ∀ s ∈ subs, s.need_translation = false)
    (htr : ∀ c, tr c = strInterc "\r\n" ((rustLines c).map f))
    (hfNL : ∀ u, '\n' ∉ (f u).data)
    (hfBS : ∀ u, '\\' ∉ (f u).data)
    (hfirst : ∀ t0 ∈ ((subs.map (processSub dict)).filterMap Prod.snd).head?,
      byteLen t0 ≤ MAX_CHUNK_SIZE) :
    (translateSubs tr dict subs).1 = some (subs.map (expectedSub dict f)) ∧
    (subs.map (expectedSub dict f)).map Sub.index = subs.map Sub.index ∧
    (subs.map (expectedSub dict f)).map Sub.start_time = subs.map Sub.start_time ∧
    (subs.map (expectedSub dict f)).map Sub.end_time = subs.map Sub.end_time ∧
    serializeSubs (subs.map (expectedSub dict f)) =
      strJoin (subs.map (fun s => stringify (expectedSub dict f s))) ∧
    (∀ s ∈ subs, (expectedSub dict f s).need_translation = false →
      (expectedSub dict f s).text = collapseNL " " (stripTags s.text)) ∧
    (∀ s ∈ subs, '<' ∉ s.text.data → '\n' ∉ s.text.data →
      (expectedSub dict f s).need_translation = false →
      (expectedSub dict f s).text = s.text) := by
  refine ⟨?_, ?_, ?_, ?_, ?_, ?_, ?_⟩
  · -- the delivery argument: one translated line per flagged entry
    have hne : [] ∉ runBatcher ((subs.map (processSub dict)).filterMap Prod.snd) := by
      cases hhead : ((subs.map (processSub dict)).filterMap Prod.snd).head? with
      | none =>
        have hnil : (subs.map (processSub dict)).filterMap Prod.snd = [] := by
          cases htl : (subs.map (processSub dict)).filterMap Prod.snd with
          | nil => rfl
          | cons a b => rw [htl] at hhead; cases hhead
        rw [hnil]
        simp [runBatcher, finishBatch]
      | some t0 =>
        exact runBatcher_no_empty _ t0 hhead (hfirst t0 (by rw [hhead]; rfl))
    have hlines : translatedLines tr
        (runBatcher ((subs.map (processSub dict)).filterMap Prod.snd)) =
        ((subs.map (processSub dict)).filterMap Prod.snd).map f := by
      rw [translatedLines_eq tr f htr hfNL hfBS _ hne]
      · rw [runBatcher_join]
      · rw [runBatcher_join]
        exact batch_texts_no_nl dict subs
    rw [translateSubs_fst, hlines]
    exact attach_spec dict f subs hinit
  · rw [List.map_map]
    apply List.map_congr_left
    intro s _
    exact expectedSub_index dict f s
  · rw [List.map_map]
    apply List.map_congr_left
    intro s _
    exact expectedSub_start dict f s
  · rw [List.map_map]
    apply List.map_congr_left
    intro s _
    exact expectedSub_end dict f s
  · unfold serializeSubs
    rw [List.map_map]
    rfl
  · intro s _ hnt
    unfold expectedSub at hnt ⊢
    by_cases hc : (colorize dict (collapseNL " " (stripTags s.text))).2
    · rw [if_pos hc] at hnt
      cases hnt
    · rw [if_neg hc]
  · intro s hs htag hnlc hnt
    have htext : (expectedSub dict f s).text = collapseNL " " (stripTags s.text) := by
      unfold expectedSub at hnt ⊢
      by_cases hc : (colorize dict (collapseNL " " (stripTags s.text))).2
      · rw [if_pos hc] at hnt
        cases hnt
      · rw [if_neg hc]
    rw [htext, stripTags_id s.text htag, collapseNL_id " " s.text hnlc]

/-- Claim C5 witness: one flagged entry under a constant per-line
translation. -/
theorem c5_roundtrip_witness :
    (translateSubs
        (fun c => strInterc "\r\n" ((rustLines c).map (fun _ => "Y")))
        [("ab", WordKind.Unknown)] [sampleSub "ab"]).1 =
      some ([sampleSub "ab"].map
        (expectedSub [("ab", WordKind.Unknown)] (fun _ => "Y"))) ∧
    ([sampleSub "ab"].map
        (expectedSub [("ab", WordKind.Unknown)] (fun _ => "Y"))).map Sub.index =
      [sampleSub "ab"].map Sub.index ∧
    ([sampleSub "ab"].map
        (expectedSub [("ab", WordKind.Unknown)] (fun _ => "Y"))).map Sub.start_time =
      [sampleSub "ab"].map Sub.start_time ∧
    ([sampleSub "ab"].map
        (expectedSub [("ab", WordKind.Unknown)] (fun _ => "Y"))).map Sub.end_time =
      [sampleSub "ab"].map Sub.end_time ∧
    serializeSubs ([sampleSub "ab"].map
        (expectedSub [("ab", WordKind.Unknown)] (fun _ => "Y"))) =
      strJoin ([sampleSub "ab"].map
        (fun s => stringify (expectedSub [("ab", WordKind.Unknown)] (fun _ => "Y") s))) ∧
    (∀ s ∈ [sampleSub "ab"],
      (expectedSub [("ab", WordKind.Unknown)] (fun _ => "Y") s).need_translation = false →
      (expectedSub [("ab", WordKind.Unknown)] (fun _ => "Y") s).text =
        collapseNL " " (stripTags s.text)) ∧
    (∀ s ∈ [sampleSub "ab"], '<' ∉ s.text.data → '\n' ∉ s.text.data →
      (expectedSub [("ab", WordKind.Unknown)] (fun _ => "Y") s).need_translation = false →
      (expectedSub [("ab", WordKind.Unknown)] (fun _ => "Y") s).text = s.text) := by
  refine c5_roundtrip _ _ _ _ ?_ ?_ ?_ ?_ ?_
  · intro s hs
    simp only [List.mem_singleton] at hs
    rw [hs]
    rfl
  · intro c
    rfl
  · intro u
    decide
  · intro u
    decide
  · intro t0 ht0
    have hh : (([sampleSub "ab"] : List Sub).map
        (processSub [("ab", WordKind.Unknown)])).filterMap Prod.snd = ["ab"] := by
      decide
    rw [hh] at ht0
    injection ht0 with ht1
    rw [← ht1]
    decide

/-- Claim C5 counterexample: an entry that is NOT flagged for
translation (its only words are dictionary-absent, hence treated as
Known) still has its text rewritten — the internal line break becomes
a space — so the serialized output does not reproduce the parsed
text. -/
theorem c5_counterexample :
    (parseSubs "1\n00:00:01,000 --> 00:00:02,000\na\nb\n\n").map Sub.text =
      ["a\nb"] ∧
    (translateSubs (fun c => c) []
        (parseSubs "1\n00:00:01,000 --> 00:00:02,000\na\nb\n\n")).1 =
      some [{ index := 1, start_time := ⟨0, 0, 1, 0⟩, end_time := ⟨0, 0, 2, 0⟩,
              text := "a b", need_translation := false }] ∧
    ("a b" : String) ≠ "a\nb" := by
  refine ⟨by decide, by decide, by decide⟩

end SrtTranslator
